import Mathlib

set_option linter.constructorNameAsVariable false

/-!
Verification development for the badger LSM-tree core: level handler,
merge iterator, and discard stats (from `level_handler.go`,
`table/merge_iterator.go`, `discard.go`).

Keys are modelled as a user-key byte sequence together with a version
number; the on-disk full key appends a fixed-width big-endian encoding of
`MaxUint64 - version`, so byte-for-byte equality of full keys coincides
with equality of the (userKey, version) pair, and the byte order on full
keys is user-key ascending, then version descending.
-/

namespace Badger

/-- A full key: opaque user-key bytes plus the embedded version. -/
structure Key where
  userKey : List Nat
  version : Nat
deriving DecidableEq, Repr

/-- Lexicographic byte-sequence comparison. -/
def compareBytes : List Nat → List Nat → Ordering
  | [], [] => .eq
  | [], _ :: _ => .lt
  | _ :: _, [] => .gt
  | a :: as, b :: bs =>
    if a < b then .lt else if b < a then .gt else compareBytes as bs

/-- Modelled from the spec: `y.CompareKeys` (not under src/) orders full
keys by user-key ascending, then version descending (newer versions sort
before older ones at equal user-key). -/
def compareKeys (a b : Key) : Ordering :=
  if compareBytes a.userKey b.userKey = .eq then
    (if b.version < a.version then .lt
     else if a.version < b.version then .gt
     else .eq)
  else compareBytes a.userKey b.userKey

/-- Modelled from the spec: `y.SameKey` (not under src/) compares two full
keys ignoring the version suffix. -/
def sameKey (a b : Key) : Bool := a.userKey == b.userKey

theorem compareBytes_eq_iff : ∀ a b : List Nat, compareBytes a b = .eq ↔ a = b := by
  intro a
  induction a with
  | nil => intro b; cases b <;> simp [compareBytes]
  | cons x xs ih =>
    intro b
    cases b with
    | nil => simp [compareBytes]
    | cons y ys =>
      simp only [compareBytes]
      split_ifs with h1 h2
      · simp; omega
      · simp; omega
      · have hxy : x = y := by omega
        subst hxy
        rw [ih ys]
        simp

theorem compareBytes_self (l : List Nat) : compareBytes l l = .eq :=
  (compareBytes_eq_iff l l).mpr rfl

theorem compareBytes_swap : ∀ a b : List Nat, compareBytes b a = (compareBytes a b).swap := by
  intro a
  induction a with
  | nil => intro b; cases b <;> simp [compareBytes, Ordering.swap]
  | cons x xs ih =>
    intro b
    cases b with
    | nil => simp [compareBytes, Ordering.swap]
    | cons y ys =>
      simp only [compareBytes]
      split_ifs <;> first
        | omega
        | rfl
        | exact ih ys

theorem compareBytes_lt_trans :
    ∀ {a b c : List Nat}, compareBytes a b = .lt → compareBytes b c = .lt →
      compareBytes a c = .lt := by
  intro a
  induction a with
  | nil =>
    intro b c hab hbc
    cases b with
    | nil => simp [compareBytes] at hab
    | cons y ys =>
      cases c with
      | nil => simp [compareBytes] at hbc
      | cons z zs => simp [compareBytes]
  | cons x xs ih =>
    intro b c hab hbc
    cases b with
    | nil => simp [compareBytes] at hab
    | cons y ys =>
      cases c with
      | nil => simp [compareBytes] at hbc
      | cons z zs =>
        simp only [compareBytes] at hab hbc ⊢
        split_ifs at hab with h1 h2 <;> split_ifs at hbc with h3 h4 <;>
          split_ifs with h5 h6 <;> first
          | rfl
          | omega
          | (exact absurd hab (by simp))
          | (exact absurd hbc (by simp))
          | skip
        have hxy : x = y := by omega
        have hyz : y = z := by omega
        exact ih hab hbc

theorem compareKeys_lt_parts (a b : Key) :
    compareKeys a b = .lt ↔
      (compareBytes a.userKey b.userKey = .lt ∨
        (a.userKey = b.userKey ∧ b.version < a.version)) := by
  unfold compareKeys
  by_cases h1 : compareBytes a.userKey b.userKey = .eq
  · have hu : a.userKey = b.userKey := (compareBytes_eq_iff _ _).mp h1
    rw [if_pos h1, h1]
    split_ifs with h2 h3 <;> simp_all
  · rw [if_neg h1]
    have hu : ¬ a.userKey = b.userKey := fun hh => h1 ((compareBytes_eq_iff _ _).mpr hh)
    simp [hu]

theorem compareKeys_eq_iff (a b : Key) : compareKeys a b = .eq ↔ a = b := by
  unfold compareKeys
  by_cases h1 : compareBytes a.userKey b.userKey = .eq
  · have hu : a.userKey = b.userKey := (compareBytes_eq_iff _ _).mp h1
    rw [if_pos h1]
    split_ifs with h2 h3
    · constructor
      · intro hh; exact absurd hh (by decide)
      · intro hh; subst hh; omega
    · constructor
      · intro hh; exact absurd hh (by decide)
      · intro hh; subst hh; omega
    · constructor
      · intro _
        cases a; cases b
        simp only [Key.mk.injEq]
        simp only at hu h2 h3
        exact ⟨hu, by omega⟩
      · intro _; rfl
  · rw [if_neg h1]
    constructor
    · intro hh; exact absurd hh h1
    · intro hh; subst hh
      exact absurd (compareBytes_self _) h1

theorem compareKeys_swap (a b : Key) : compareKeys b a = (compareKeys a b).swap := by
  unfold compareKeys
  by_cases hu : a.userKey = b.userKey
  · rw [hu]
    rw [if_pos (compareBytes_self _), if_pos (compareBytes_self _)]
    split_ifs <;> first | rfl | omega
  · have h1 : ¬ compareBytes a.userKey b.userKey = .eq :=
      fun hh => hu ((compareBytes_eq_iff _ _).mp hh)
    have h2 : ¬ compareBytes b.userKey a.userKey = .eq :=
      fun hh => hu ((compareBytes_eq_iff _ _).mp hh).symm
    rw [if_neg h1, if_neg h2]
    exact compareBytes_swap a.userKey b.userKey

theorem compareKeys_lt_trans {a b c : Key} (hab : compareKeys a b = .lt)
    (hbc : compareKeys b c = .lt) : compareKeys a c = .lt := by
  rw [compareKeys_lt_parts] at hab hbc ⊢
  rcases hab with hab | ⟨hab1, hab2⟩ <;> rcases hbc with hbc | ⟨hbc1, hbc2⟩
  · exact Or.inl (compareBytes_lt_trans hab hbc)
  · rw [← hbc1]
    exact Or.inl hab
  · rw [hab1]
    exact Or.inl hbc
  · rw [hab1, hbc1]
    exact Or.inr ⟨rfl, by omega⟩

instance : LinearOrder Key where
  le a b := compareKeys a b ≠ .gt
  lt a b := compareKeys a b = .lt
  le_refl a := by
    have : compareKeys a a = .eq := (compareKeys_eq_iff a a).mpr rfl
    simp [this]
  le_trans a b c hab hbc := by
    simp only at *
    rcases h1 : compareKeys a b with hx | hx | hx <;> rw [h1] at hab <;> try exact absurd rfl hab
    · rcases h2 : compareKeys b c with hy | hy | hy <;> rw [h2] at hbc <;> try exact absurd rfl hbc
      · rw [compareKeys_lt_trans h1 h2]; simp
      · rw [compareKeys_eq_iff] at h2; rw [← h2, h1]; simp
    · rw [compareKeys_eq_iff] at h1
      rw [h1]
      exact hbc
  lt_iff_le_not_le a b := by
    simp only
    constructor
    · intro h
      constructor
      · rw [h]; simp
      · rw [compareKeys_swap, h]
        simp [Ordering.swap]
    · rintro ⟨h1, h2⟩
      rw [compareKeys_swap] at h2
      rcases h : compareKeys a b with hx | hx | hx
      · rfl
      · rw [h] at h2; simp [Ordering.swap] at h2
      · rw [h] at h1; simp at h1
  le_antisymm a b hab hba := by
    simp only at *
    rw [compareKeys_swap] at hba
    rcases h : compareKeys a b with hx | hx | hx
    · rw [h] at hba; simp [Ordering.swap] at hba
    · exact (compareKeys_eq_iff a b).mp h
    · rw [h] at hab; simp at hab
  le_total a b := by
    simp only
    rcases h : compareKeys a b with hx | hx | hx
    · left; simp [h]
    · left; simp [h]
    · right; rw [compareKeys_swap, h]; simp [Ordering.swap]
  decidableLE a b := decidable_of_iff (compareKeys a b ≠ .gt) Iff.rfl

theorem compareKeys_lt_iff (a b : Key) : compareKeys a b = .lt ↔ a < b := Iff.rfl

theorem compareKeys_gt_iff (a b : Key) : compareKeys a b = .gt ↔ b < a := by
  rw [show (b < a) = (compareKeys b a = .lt) from rfl]
  rw [compareKeys_swap a b]
  rcases h : compareKeys a b with hx | hx | hx <;> decide

theorem key_le_iff (a b : Key) : a ≤ b ↔ compareKeys a b ≠ .gt := Iff.rfl

/-! ### Go `sort.Search`

`level_handler.go` and `discard.go` both use Go's `sort.Search(n, f)`,
which binary-searches for the least index `i` in `[0, n)` with `f(i)`
true, assuming `f` is monotone on `[0, n)`, and returns `n` if there is
none. -/

def goSearchAux (f : Nat → Bool) (i j : Nat) : Nat :=
  if _h : i < j then
    let m := (i + j) / 2
    if f m then goSearchAux f i m else goSearchAux f (m + 1) j
  else i
termination_by j - i
decreasing_by
  · omega
  · omega

def goSearch (n : Nat) (f : Nat → Bool) : Nat := goSearchAux f 0 n

theorem goSearchAux_spec (f : Nat → Bool) (n : Nat)
    (hmono : ∀ a b, a ≤ b → b < n → f a = true → f b = true) :
    ∀ d i j, j - i ≤ d → i ≤ j → j ≤ n →
      (∀ k, k < i → f k = false) → (∀ k, j ≤ k → k < n → f k = true) →
      i ≤ goSearchAux f i j ∧ goSearchAux f i j ≤ j ∧
        (∀ k, k < goSearchAux f i j → f k = false) ∧
        (∀ k, goSearchAux f i j ≤ k → k < n → f k = true) := by
  intro d
  induction d with
  | zero =>
    intro i j hd hij hjn hlow hhigh
    have : i = j := by omega
    subst this
    rw [goSearchAux, dif_neg (by omega : ¬ i < i)]
    exact ⟨le_refl _, le_refl _, hlow, fun k hk hkn => hhigh k hk hkn⟩
  | succ d ih =>
    intro i j hd hij hjn hlow hhigh
    rw [goSearchAux]
    by_cases h : i < j
    · rw [dif_pos h]
      simp only
      set m := (i + j) / 2 with hm
      have hmlo : i ≤ m := by omega
      have hmhi : m < j := by omega
      by_cases hf : f m
      · rw [if_pos hf]
        obtain ⟨h1, h2, h3, h4⟩ := ih i m (by omega) hmlo (by omega) hlow
          (fun k hk hkn => hmono m k hk hkn hf)
        exact ⟨h1, by omega, h3, h4⟩
      · rw [if_neg hf]
        have hlow2 : ∀ k, k < m + 1 → f k = false := by
          intro k hk
          by_cases hki : k < i
          · exact hlow k hki
          · by_cases hfk : f k
            · exact absurd (hmono k m (by omega) (by omega) hfk) (by simpa using hf)
            · simpa using hfk
        obtain ⟨h1, h2, h3, h4⟩ := ih (m + 1) j (by omega) (by omega) hjn hlow2 hhigh
        exact ⟨by omega, h2, h3, h4⟩
    · rw [dif_neg h]
      have : i = j := by omega
      subst this
      exact ⟨le_refl _, le_refl _, hlow, fun k hk hkn => hhigh k hk hkn⟩

/-- Characterisation of `sort.Search` under a monotone predicate:
the result is the least index in `[0, n)` satisfying `f`, or `n`. -/
theorem goSearch_spec (f : Nat → Bool) (n : Nat)
    (hmono : ∀ a b, a ≤ b → b < n → f a = true → f b = true) :
    goSearch n f ≤ n ∧ (∀ k, k < goSearch n f → f k = false) ∧
      (goSearch n f < n → f (goSearch n f) = true) := by
  have h := goSearchAux_spec f n hmono n 0 n (by omega) (by omega) (by omega)
    (fun k hk => absurd hk (by omega)) (fun k hk hkn => absurd hkn (by omega))
  exact ⟨h.2.1, h.2.2.1, fun hlt => h.2.2.2 _ (le_refl _) hlt⟩

/-! ### DiscardStats (`discard.go`)

The mmapped `DISCARD` file is a sequence of 16-byte slots, each holding
two big-endian u64 words `(fid, discard)`.  The byte array `lf.Data` is
modelled as the list of its slots; `lf.get(16*slot)` and
`lf.get(16*slot+8)` read the two words of a slot, `lf.set` writes one
word (u64, so modulo 2^64). -/

structure DiscardStats where
  slots : List (Nat × Nat)
  nextEmptySlot : Nat
deriving DecidableEq, Repr

namespace DiscardStats

/-- Two's-complement reading of a u64 word as Go `int64`. -/
def toI64 (x : Nat) : Int :=
  if x % 2 ^ 64 < 2 ^ 63 then ((x % 2 ^ 64 : Nat) : Int)
  else ((x % 2 ^ 64 : Nat) : Int) - 2 ^ 64

/-- `lf.get(16*slot)`: the fid word of a slot (0 beyond the mapping). -/
def fidAt (lf : DiscardStats) (slot : Nat) : Nat := (lf.slots.getD slot (0, 0)).1

/-- `lf.get(16*slot+8)`: the discard word of a slot. -/
def discAt (lf : DiscardStats) (slot : Nat) : Nat := (lf.slots.getD slot (0, 0)).2

/-- `lf.set(16*slot, v)`. -/
def setFid (lf : DiscardStats) (slot : Nat) (v : Nat) : DiscardStats :=
  { lf with slots := lf.slots.set slot (v % 2 ^ 64, (lf.slots.getD slot (0, 0)).2) }

/-- `lf.set(16*slot+8, v)`. -/
def setDisc (lf : DiscardStats) (slot : Nat) (v : Nat) : DiscardStats :=
  { lf with slots := lf.slots.set slot ((lf.slots.getD slot (0, 0)).1, v % 2 ^ 64) }

/-- `lf.maxSlot() = len(lf.Data) / 16`. -/
def maxSlot (lf : DiscardStats) : Nat := lf.slots.length

/-- `lf.zeroOut()`: zero both words of the slot at `nextEmptySlot`. -/
def zeroOut (lf : DiscardStats) : DiscardStats :=
  (lf.setFid lf.nextEmptySlot 0).setDisc lf.nextEmptySlot 0

/-- Slot ordering used by `sort.Sort(lf)`: ascending fid
(`Less(i,j) = get(16*i) < get(16*j)`). -/
def fidLe (a b : Nat × Nat) : Prop := a.1 ≤ b.1

instance : DecidableRel fidLe := fun a b => Nat.decLe a.1 b.1

instance : IsTotal (Nat × Nat) fidLe := ⟨fun a b => Nat.le_total a.1 b.1⟩

instance : IsTrans (Nat × Nat) fidLe := ⟨fun _ _ _ => Nat.le_trans⟩

/-- `sort.Sort(lf)`: sort the valid region `[0, nextEmptySlot)` by fid
ascending, leaving the rest of the mapping untouched. -/
def sortValid (lf : DiscardStats) : DiscardStats :=
  { lf with
    slots := (lf.slots.take lf.nextEmptySlot).insertionSort fidLe
      ++ lf.slots.drop lf.nextEmptySlot }

/-- `lf.Truncate(newLen)` for a growing truncate: the new bytes are zero.
`newSlots` counts slots (bytes / 16). -/
def truncate (lf : DiscardStats) (newSlots : Nat) : DiscardStats :=
  { lf with slots := lf.slots ++ List.replicate (newSlots - lf.slots.length) (0, 0) }

/-- The `for lf.nextEmptySlot >= lf.maxSlot()` doubling loop of `Update`,
with explicit fuel (the Go loop terminates whenever the mapping is
non-empty, which `Update` always runs under). -/
def growLoop : Nat → DiscardStats → DiscardStats
  | 0, lf => lf
  | fuel + 1, lf =>
    if lf.nextEmptySlot ≥ lf.maxSlot then growLoop fuel (lf.truncate (2 * lf.maxSlot))
    else lf

/-- The `sort.Search(lf.nextEmptySlot, ...)` call inside `Update`. -/
def searchIdx (lf : DiscardStats) (fid : Nat) : Nat :=
  goSearch lf.nextEmptySlot (fun slot => decide (fid ≤ lf.fidAt slot))

/-- The two slot-word writes of the not-found path of `Update`, followed
by the `nextEmptySlot++`. -/
def afterWrite (lf : DiscardStats) (fid : Nat) (discard : Int) : DiscardStats :=
  { (lf.setFid lf.nextEmptySlot fid).setDisc lf.nextEmptySlot discard.toNat with
    nextEmptySlot := lf.nextEmptySlot + 1 }

/-- The `Could not find the fid. Add the entry.` path of `Update`: write
the new slot at `nextEmptySlot`, advance it, run the doubling loop, zero
the new sentinel and re-sort the valid region. -/
def appendNew (lf : DiscardStats) (fid : Nat) (discard : Int) : Int × DiscardStats :=
  (discard,
    (growLoop ((afterWrite lf fid discard).nextEmptySlot + 1)
      (afterWrite lf fid discard)).zeroOut.sortValid)

/-- `discardStats.Update(fidu, discard)`, returning the int64 result and
the new file state. -/
def update (lf : DiscardStats) (fidu : Nat) (discard : Int) : Int × DiscardStats :=
  if lf.searchIdx (fidu % 2 ^ 32) < lf.nextEmptySlot ∧
      lf.fidAt (lf.searchIdx (fidu % 2 ^ 32)) = fidu % 2 ^ 32 then
    if discard = 0 then (toI64 (lf.discAt (lf.searchIdx (fidu % 2 ^ 32))), lf)
    else if discard < 0 then (0, lf.setDisc (lf.searchIdx (fidu % 2 ^ 32)) 0)
    else
      (toI64 (lf.discAt (lf.searchIdx (fidu % 2 ^ 32)) + discard.toNat),
        lf.setDisc (lf.searchIdx (fidu % 2 ^ 32))
          (lf.discAt (lf.searchIdx (fidu % 2 ^ 32)) + discard.toNat))
  else if discard ≤ 0 then (0, lf)
  else appendNew lf (fidu % 2 ^ 32) discard

/-- `InitDiscardStats` once the file is mapped: `data` is the mapped slot
array, `isNew` the `z.NewFile` signal.  Zero the first slot if new, scan
for the first zero-fid slot to set `nextEmptySlot`, then sort the valid
region. -/
def initStats (data : List (Nat × Nat)) (isNew : Bool) : DiscardStats :=
  let lf0 : DiscardStats := { slots := data, nextEmptySlot := 0 }
  let lf1 : DiscardStats := if isNew then lf0.zeroOut else lf0
  let lf2 : DiscardStats := { lf1 with
    nextEmptySlot :=
      match lf1.slots.findIdx? (fun s => s.1 == 0) with
      | some i => i
      | none => 0 }
  lf2.sortValid

/-- A freshly created 1 MiB `DISCARD` file: 65536 zero slots. -/
def initFresh : DiscardStats := initStats (List.replicate 65536 (0, 0)) true

/-- The file invariant: the valid region `[0, nextEmptySlot)` is sorted by
fid ascending, the sentinel slot at `nextEmptySlot` is zeroed, and the
sentinel lies inside the mapping. -/
def Inv (lf : DiscardStats) : Prop :=
  List.Sorted fidLe (lf.slots.take lf.nextEmptySlot)
  ∧ lf.slots.getD lf.nextEmptySlot (0, 0) = (0, 0)
  ∧ lf.nextEmptySlot < lf.slots.length

end DiscardStats

/-! ### List helpers used by the DiscardStats proofs -/

theorem listSetGetDSame : ∀ (l : List α) (i : Nat) (d : α), l.set i (l.getD i d) = l := by
  intro l
  induction l with
  | nil => intro i d; rfl
  | cons x xs ih =>
    intro i d
    cases i with
    | zero => rfl
    | succ n =>
      simp only [List.getD_cons_succ, List.set]
      rw [ih n d]

theorem listTakeSetOfLe : ∀ (l : List α) (i n : Nat) (v : α), n ≤ i →
    (l.set i v).take n = l.take n := by
  intro l
  induction l with
  | nil => intro i n v _; rfl
  | cons x xs ih =>
    intro i n v h
    cases i with
    | zero =>
      have : n = 0 := by omega
      subst this; rfl
    | succ m =>
      cases n with
      | zero => rfl
      | succ k => simp only [List.set, List.take]; rw [ih m k v (by omega)]

theorem listTakeSetSucc : ∀ (l : List α) (n : Nat) (v : α), n < l.length →
    (l.set n v).take (n + 1) = l.take n ++ [v] := by
  intro l
  induction l with
  | nil => intro n v h; simp at h
  | cons x xs ih =>
    intro n v h
    cases n with
    | zero => rfl
    | succ m =>
      simp only [List.set, List.take, List.cons_append]
      rw [ih m v (by simpa using h)]

theorem listTakeSetOfLt : ∀ (l : List α) (i n : Nat) (v : α), i < n →
    (l.set i v).take n = (l.take n).set i v := by
  intro l
  induction l with
  | nil => intro i n v _; simp
  | cons x xs ih =>
    intro i n v h
    cases n with
    | zero => omega
    | succ m =>
      cases i with
      | zero => rfl
      | succ k => simp only [List.set, List.take]; rw [ih k m v (by omega)]

theorem listGetDSetNe : ∀ (l : List α) (i j : Nat) (v d : α), i ≠ j →
    (l.set i v).getD j d = l.getD j d := by
  intro l
  induction l with
  | nil => intro i j v d _; rfl
  | cons x xs ih =>
    intro i j v d h
    cases i with
    | zero =>
      cases j with
      | zero => omega
      | succ k => rfl
    | succ m =>
      cases j with
      | zero => rfl
      | succ k =>
        simp only [List.set, List.getD_cons_succ]
        exact ih m k v d (by omega)

theorem listGetDSetSelf : ∀ (l : List α) (i : Nat) (v d : α), i < l.length →
    (l.set i v).getD i d = v := by
  intro l
  induction l with
  | nil => intro i v d h; simp at h
  | cons x xs ih =>
    intro i v d h
    cases i with
    | zero => rfl
    | succ m =>
      simp only [List.set, List.getD_cons_succ]
      exact ih m v d (by simpa using h)

theorem listGetDAppendRight (A B : List α) (k : Nat) (d : α) :
    (A ++ B).getD (A.length + k) d = B.getD k d := by
  induction A with
  | nil => simp
  | cons x xs ih =>
    rw [List.cons_append, show (x :: xs).length + k = (xs.length + k) + 1 by simp; omega,
      List.getD_cons_succ]
    exact ih

theorem listGetDTake : ∀ (l : List α) (n i : Nat) (d : α), i < n →
    (l.take n).getD i d = l.getD i d := by
  intro l
  induction l with
  | nil => intro n i d _; simp
  | cons x xs ih =>
    intro n i d h
    cases n with
    | zero => omega
    | succ m =>
      cases i with
      | zero => rfl
      | succ k =>
        simp only [List.take, List.getD_cons_succ]
        exact ih m k d (by omega)

theorem listGetDOfGe : ∀ (l : List α) (i : Nat) (d : α), l.length ≤ i → l.getD i d = d := by
  intro l
  induction l with
  | nil => intro i d _; simp
  | cons x xs ih =>
    intro i d h
    cases i with
    | zero => simp at h
    | succ m =>
      simp only [List.getD_cons_succ]
      exact ih m d (by simpa using h)

theorem listSetOfGe : ∀ (l : List α) (i : Nat) (v : α), l.length ≤ i → l.set i v = l := by
  intro l
  induction l with
  | nil => intro i v _; rfl
  | cons x xs ih =>
    intro i v h
    cases i with
    | zero => simp at h
    | succ m =>
      simp only [List.set]
      rw [ih m v (by simpa using h)]

theorem listGetDDrop : ∀ (l : List α) (m k : Nat) (d : α),
    (l.drop m).getD k d = l.getD (m + k) d := by
  intro l
  induction l with
  | nil => intro m k d; simp
  | cons x xs ih =>
    intro m k d
    cases m with
    | zero => simp
    | succ j =>
      rw [List.drop_succ_cons, ih j k d,
        show Nat.succ j + k = (j + k) + 1 by omega, List.getD_cons_succ]

theorem listGetDEqGetElem : ∀ (l : List α) (i : Nat) (d : α) (h : i < l.length),
    l.getD i d = l[i] := by
  intro l
  induction l with
  | nil => intro i d h; simp at h
  | cons x xs ih =>
    intro i d h
    cases i with
    | zero => rfl
    | succ m =>
      simp only [List.getD_cons_succ, List.getElem_cons_succ]
      exact ih m d (by simpa using h)

theorem listGetDReplicate (n i : Nat) (a d : α) (h : i < n) :
    (List.replicate n a).getD i d = a := by
  induction n generalizing i with
  | zero => omega
  | succ m ih =>
    cases i with
    | zero => rfl
    | succ k =>
      rw [List.replicate_succ, List.getD_cons_succ]
      exact ih k (by omega)

namespace DiscardStats

theorem length_setFid (lf : DiscardStats) (i v : Nat) :
    (lf.setFid i v).slots.length = lf.slots.length := by
  simp [setFid]

theorem length_setDisc (lf : DiscardStats) (i v : Nat) :
    (lf.setDisc i v).slots.length = lf.slots.length := by
  simp [setDisc]

/-- The two word-writes of the not-found path amount to overwriting the
whole slot at `nextEmptySlot`. -/
theorem writeSlot_eq (lf : DiscardStats) (fid dn : Nat) (hlt : lf.nextEmptySlot < lf.slots.length) :
    ((lf.setFid lf.nextEmptySlot fid).setDisc lf.nextEmptySlot dn).slots =
      lf.slots.set lf.nextEmptySlot (fid % 2 ^ 64, dn % 2 ^ 64) := by
  simp only [setFid, setDisc]
  rw [listGetDSetSelf _ _ _ _ (by simpa using hlt)]
  rw [List.set_set]

/-- `zeroOut` overwrites the sentinel slot with `(0, 0)`. -/
theorem zeroOut_slots (lf : DiscardStats) (hlt : lf.nextEmptySlot < lf.slots.length) :
    lf.zeroOut.slots = lf.slots.set lf.nextEmptySlot (0, 0) ∧
      lf.zeroOut.nextEmptySlot = lf.nextEmptySlot := by
  constructor
  · simp only [zeroOut, setFid, setDisc]
    rw [listGetDSetSelf _ _ _ _ (by simpa using hlt)]
    rw [List.set_set]
    norm_num
  · rfl

/-- Monotonicity of the fid words over a sorted valid region. -/
theorem fidAt_mono (lf : DiscardStats)
    (hs : List.Sorted fidLe (lf.slots.take lf.nextEmptySlot))
    (hb : lf.nextEmptySlot ≤ lf.slots.length) :
    ∀ a b, a ≤ b → b < lf.nextEmptySlot → lf.fidAt a ≤ lf.fidAt b := by
  intro a b hab hbn
  rcases Nat.eq_or_lt_of_le hab with h | h
  · subst h; exact le_refl _
  · have hlen : (lf.slots.take lf.nextEmptySlot).length = lf.nextEmptySlot := by
      simp [List.length_take]; omega
    have hp := List.pairwise_iff_getElem.mp hs a b (by omega) (by omega) h
    have hia : a < (lf.slots.take lf.nextEmptySlot).length := by omega
    have hib : b < (lf.slots.take lf.nextEmptySlot).length := by omega
    have ha : lf.fidAt a = ((lf.slots.take lf.nextEmptySlot)[a]).1 := by
      rw [← listGetDEqGetElem _ _ (0, 0), fidAt, listGetDTake _ _ _ _ (by omega)]
    have hbq : lf.fidAt b = ((lf.slots.take lf.nextEmptySlot)[b]).1 := by
      rw [← listGetDEqGetElem _ _ (0, 0), fidAt, listGetDTake _ _ _ _ (by omega)]
    rw [ha, hbq]
    exact hp

/-- If some valid slot holds `fid`, the binary search lands on a valid
slot holding exactly `fid` (the least one). -/
theorem searchIdx_found (lf : DiscardStats) (fid : Nat)
    (hs : List.Sorted fidLe (lf.slots.take lf.nextEmptySlot))
    (hb : lf.nextEmptySlot ≤ lf.slots.length)
    (i : Nat) (hi : i < lf.nextEmptySlot) (hf : lf.fidAt i = fid) :
    lf.searchIdx fid < lf.nextEmptySlot ∧ lf.fidAt (lf.searchIdx fid) = fid := by
  have hmono : ∀ a b, a ≤ b → b < lf.nextEmptySlot →
      (decide (fid ≤ lf.fidAt a)) = true → (decide (fid ≤ lf.fidAt b)) = true := by
    intro a b hab hbn ha
    simp only [decide_eq_true_eq] at ha ⊢
    exact le_trans ha (fidAt_mono lf hs hb a b hab hbn)
  obtain ⟨h1, h2, h3⟩ := goSearch_spec _ lf.nextEmptySlot hmono
  have hfi : decide (fid ≤ lf.fidAt i) = true := by simp [hf]
  have hle : lf.searchIdx fid ≤ i := by
    by_contra hc
    unfold searchIdx at hc
    have := h2 i (by omega)
    rw [hfi] at this
    simp at this
  have hlt : lf.searchIdx fid < lf.nextEmptySlot := by omega
  refine ⟨hlt, ?_⟩
  have hge : fid ≤ lf.fidAt (lf.searchIdx fid) := by
    have := h3 hlt
    simpa using this
  have hle2 : lf.fidAt (lf.searchIdx fid) ≤ lf.fidAt i :=
    fidAt_mono lf hs hb _ i hle hi
  omega

theorem update_notfound_nonpos (lf : DiscardStats) (fidu : Nat) (d : Int)
    (hnf : ∀ i, i < lf.nextEmptySlot → lf.fidAt i ≠ fidu % 2 ^ 32) (hd : d ≤ 0) :
    update lf fidu d = (0, lf) := by
  unfold update
  rw [if_neg (by rintro ⟨hh1, hh2⟩; exact hnf _ hh1 hh2), if_pos hd]

theorem update_notfound_pos (lf : DiscardStats) (fidu : Nat) (d : Int)
    (hnf : ∀ i, i < lf.nextEmptySlot → lf.fidAt i ≠ fidu % 2 ^ 32) (hd : 0 < d) :
    update lf fidu d = appendNew lf (fidu % 2 ^ 32) d := by
  unfold update
  rw [if_neg (by rintro ⟨hh1, hh2⟩; exact hnf _ hh1 hh2), if_neg (by omega)]

theorem update_found_query (lf : DiscardStats) (fidu : Nat)
    (hs : List.Sorted fidLe (lf.slots.take lf.nextEmptySlot))
    (hb : lf.nextEmptySlot ≤ lf.slots.length)
    (i : Nat) (hi : i < lf.nextEmptySlot) (hf : lf.fidAt i = fidu % 2 ^ 32) :
    update lf fidu 0 = (toI64 (lf.discAt (lf.searchIdx (fidu % 2 ^ 32))), lf) := by
  obtain ⟨h1, h2⟩ := searchIdx_found lf (fidu % 2 ^ 32) hs hb i hi hf
  unfold update
  rw [if_pos ⟨h1, h2⟩, if_pos rfl]

theorem update_found_reset (lf : DiscardStats) (fidu : Nat) (d : Int)
    (hs : List.Sorted fidLe (lf.slots.take lf.nextEmptySlot))
    (hb : lf.nextEmptySlot ≤ lf.slots.length)
    (i : Nat) (hi : i < lf.nextEmptySlot) (hf : lf.fidAt i = fidu % 2 ^ 32)
    (hd : d < 0) :
    update lf fidu d = (0, lf.setDisc (lf.searchIdx (fidu % 2 ^ 32)) 0) := by
  obtain ⟨h1, h2⟩ := searchIdx_found lf (fidu % 2 ^ 32) hs hb i hi hf
  unfold update
  rw [if_pos ⟨h1, h2⟩, if_neg (by omega), if_pos hd]

theorem maxSlot_truncate (lf : DiscardStats) (k : Nat) (h : lf.slots.length ≤ k) :
    (lf.truncate k).maxSlot = k := by
  simp only [truncate, maxSlot, List.length_append, List.length_replicate]
  omega

theorem growLoop_small (fuel : Nat) (lf : DiscardStats) (h : lf.nextEmptySlot < lf.maxSlot) :
    growLoop (fuel + 1) lf = lf := by
  unfold growLoop
  rw [if_neg (by omega)]

theorem growLoop_double (fuel : Nat) (lf : DiscardStats)
    (h : lf.nextEmptySlot = lf.maxSlot) (hpos : 0 < lf.maxSlot) :
    growLoop (fuel + 2) lf = lf.truncate (2 * lf.maxSlot) := by
  rw [show fuel + 2 = (fuel + 1) + 1 by omega]
  unfold growLoop
  rw [if_pos (by omega)]
  apply growLoop_small
  have : (lf.truncate (2 * lf.maxSlot)).maxSlot = 2 * lf.maxSlot :=
    maxSlot_truncate lf _ (by unfold maxSlot at *; omega)
  rw [this]
  have hne : (lf.truncate (2 * lf.maxSlot)).nextEmptySlot = lf.nextEmptySlot := rfl
  omega

theorem afterWrite_eq (lf : DiscardStats) (fid : Nat) (d : Int)
    (hlt : lf.nextEmptySlot < lf.slots.length) :
    afterWrite lf fid d =
      ⟨lf.slots.set lf.nextEmptySlot (fid % 2 ^ 64, d.toNat % 2 ^ 64),
        lf.nextEmptySlot + 1⟩ := by
  unfold afterWrite
  rw [show ({ (lf.setFid lf.nextEmptySlot fid).setDisc lf.nextEmptySlot d.toNat with
      nextEmptySlot := lf.nextEmptySlot + 1 } : DiscardStats) =
      ⟨((lf.setFid lf.nextEmptySlot fid).setDisc lf.nextEmptySlot d.toNat).slots,
        lf.nextEmptySlot + 1⟩ from rfl]
  rw [writeSlot_eq lf fid d.toNat hlt]

/-- Full characterisation of the not-found appending path under the file
invariant: the returned value is `discard`; the valid region gains the
slot `(fid, discard)` and is re-sorted; the new sentinel is zeroed; the
mapping doubles exactly when the slot after the append is the last one;
and the invariant is preserved. -/
theorem appendNew_spec (lf : DiscardStats) (fid : Nat) (d : Int)
    (hInv : Inv lf) (hfid : fid < 2 ^ 64) (hd64 : d.toNat < 2 ^ 64) :
    (appendNew lf fid d).1 = d ∧
    (appendNew lf fid d).2.nextEmptySlot = lf.nextEmptySlot + 1 ∧
    (appendNew lf fid d).2.slots.take (lf.nextEmptySlot + 1) =
      (lf.slots.take lf.nextEmptySlot ++ [(fid, d.toNat)]).insertionSort fidLe ∧
    (appendNew lf fid d).2.slots.getD (lf.nextEmptySlot + 1) (0, 0) = (0, 0) ∧
    (if lf.nextEmptySlot + 1 = lf.slots.length
      then (appendNew lf fid d).2.slots.length = 2 * lf.slots.length
      else (appendNew lf fid d).2.slots.length = lf.slots.length) ∧
    Inv (appendNew lf fid d).2 := by
  obtain ⟨hs, hz, hblt⟩ := hInv
  have hw : afterWrite lf fid d =
      ⟨lf.slots.set lf.nextEmptySlot (fid, d.toNat), lf.nextEmptySlot + 1⟩ := by
    rw [afterWrite_eq lf fid d hblt, Nat.mod_eq_of_lt hfid, Nat.mod_eq_of_lt hd64]
  have hn2 : (afterWrite lf fid d).nextEmptySlot + 1 = lf.nextEmptySlot + 2 := by
    rw [hw]
  -- the state after the grow loop, in both cases
  have hgrow : ∃ s3 : DiscardStats,
      growLoop ((afterWrite lf fid d).nextEmptySlot + 1) (afterWrite lf fid d) = s3 ∧
      s3.nextEmptySlot = lf.nextEmptySlot + 1 ∧
      s3.slots.take (lf.nextEmptySlot + 1) = lf.slots.take lf.nextEmptySlot ++ [(fid, d.toNat)] ∧
      lf.nextEmptySlot + 1 < s3.slots.length ∧
      (if lf.nextEmptySlot + 1 = lf.slots.length
        then s3.slots.length = 2 * lf.slots.length
        else s3.slots.length = lf.slots.length) := by
    rcases Nat.lt_or_ge (lf.nextEmptySlot + 1) lf.slots.length with hcase | hcase
    · -- no doubling
      refine ⟨afterWrite lf fid d, ?_, ?_, ?_, ?_, ?_⟩
      · rw [hn2, show lf.nextEmptySlot + 2 = (lf.nextEmptySlot + 1) + 1 by omega]
        apply growLoop_small
        rw [hw]
        simpa [maxSlot] using hcase
      · rw [hw]
      · rw [hw]
        exact listTakeSetSucc _ _ _ hblt
      · rw [hw]
        simpa using hcase
      · rw [hw, if_neg (by omega)]
        simp
    · -- nextEmptySlot + 1 = length: double the mapping
      have hcase2 : lf.nextEmptySlot + 1 = lf.slots.length := by omega
      refine ⟨(afterWrite lf fid d).truncate (2 * lf.slots.length), ?_, ?_, ?_, ?_, ?_⟩
      · rw [hn2]
        have hms : (afterWrite lf fid d).maxSlot = lf.slots.length := by
          rw [hw]; simp [maxSlot]
        have hne1 : (afterWrite lf fid d).nextEmptySlot = lf.nextEmptySlot + 1 := by
          rw [hw]
        have := growLoop_double lf.nextEmptySlot (afterWrite lf fid d)
          (by rw [hne1, hms]; omega) (by rw [hms]; omega)
        rw [this, hms]
      · rfl
      · rw [hw]
        show ((lf.slots.set lf.nextEmptySlot (fid, d.toNat)) ++
          List.replicate _ (0, 0)).take (lf.nextEmptySlot + 1) = _
        have hlenset : (lf.slots.set lf.nextEmptySlot (fid, d.toNat)).length =
            lf.nextEmptySlot + 1 := by simp; omega
        rw [show lf.nextEmptySlot + 1 = (lf.slots.set lf.nextEmptySlot (fid, d.toNat)).length
          from hlenset.symm, List.take_left]
        rw [← List.take_length (l := lf.slots.set lf.nextEmptySlot (fid, d.toNat)), hlenset]
        exact listTakeSetSucc _ _ _ hblt
      · rw [hw]
        show lf.nextEmptySlot + 1 < ((lf.slots.set _ _) ++ List.replicate _ (0, 0)).length
        simp
        omega
      · rw [if_pos hcase2, hw]
        show ((lf.slots.set _ _) ++ List.replicate _ (0, 0)).length = 2 * lf.slots.length
        simp
        omega
  obtain ⟨s3, hg, hg1, hg2, hg3, hg4⟩ := hgrow
  -- zeroOut
  obtain ⟨hz1, hz2⟩ := zeroOut_slots s3 (by omega)
  -- final state
  have happ : appendNew lf fid d = (d, s3.zeroOut.sortValid) := by
    unfold appendNew
    rw [hg]
  have hsortN : s3.zeroOut.sortValid.nextEmptySlot = lf.nextEmptySlot + 1 := by
    simp only [sortValid, hz2, hg1]
  -- the valid region before sorting
  have hpre : s3.zeroOut.slots.take (lf.nextEmptySlot + 1) =
      lf.slots.take lf.nextEmptySlot ++ [(fid, d.toNat)] := by
    rw [hz1, hg1, listTakeSetOfLe _ _ _ _ (le_refl _), hg2]
  have hlen0 : (lf.slots.take lf.nextEmptySlot).length = lf.nextEmptySlot := by
    simp; omega
  have hz3 : s3.zeroOut.slots.length = s3.slots.length := by
    rw [hz1]; simp
  have hfinal : s3.zeroOut.sortValid.slots =
      ((lf.slots.take lf.nextEmptySlot ++ [(fid, d.toNat)]).insertionSort fidLe)
        ++ s3.zeroOut.slots.drop (lf.nextEmptySlot + 1) := by
    simp only [sortValid, hz2, hg1, hpre]
  have hlen1 : ((lf.slots.take lf.nextEmptySlot ++ [(fid, d.toNat)]).insertionSort
      fidLe).length = lf.nextEmptySlot + 1 := by
    rw [(List.perm_insertionSort fidLe _).length_eq]
    simp [hlen0]
  have htake5 : s3.zeroOut.sortValid.slots.take (lf.nextEmptySlot + 1) =
      (lf.slots.take lf.nextEmptySlot ++ [(fid, d.toNat)]).insertionSort fidLe := by
    rw [hfinal]
    rw [show lf.nextEmptySlot + 1 = ((lf.slots.take lf.nextEmptySlot
      ++ [(fid, d.toNat)]).insertionSort fidLe).length from hlen1.symm, List.take_left]
  have hsent5 : s3.zeroOut.sortValid.slots.getD (lf.nextEmptySlot + 1) (0, 0) = (0, 0) := by
    rw [hfinal]
    rw [show lf.nextEmptySlot + 1 = ((lf.slots.take lf.nextEmptySlot
      ++ [(fid, d.toNat)]).insertionSort fidLe).length + 0 from by omega]
    rw [listGetDAppendRight, listGetDDrop, hlen1, Nat.add_zero, hz1, hg1]
    exact listGetDSetSelf _ _ _ _ (by omega)
  have hlen5 : s3.zeroOut.sortValid.slots.length = s3.slots.length := by
    rw [hfinal, List.length_append, hlen1, List.length_drop, hz3]
    omega
  refine ⟨by rw [happ], by rw [happ]; exact hsortN, ?_, ?_, ?_, ?_⟩
  · rw [happ]
    exact htake5
  · rw [happ]
    exact hsent5
  · rw [happ]
    split_ifs with hc
    · rw [hlen5]
      rw [if_pos hc] at hg4
      exact hg4
    · rw [hlen5]
      rw [if_neg hc] at hg4
      exact hg4
  · rw [happ]
    refine ⟨?_, ?_, ?_⟩
    · rw [hsortN, htake5]
      exact List.sorted_insertionSort fidLe _
    · rw [hsortN]
      exact hsent5
    · rw [hsortN, hlen5]
      omega

theorem update_found_add (lf : DiscardStats) (fidu : Nat) (d : Int)
    (hs : List.Sorted fidLe (lf.slots.take lf.nextEmptySlot))
    (hb : lf.nextEmptySlot ≤ lf.slots.length)
    (i : Nat) (hi : i < lf.nextEmptySlot) (hf : lf.fidAt i = fidu % 2 ^ 32)
    (hd : 0 < d) :
    update lf fidu d =
      (toI64 (lf.discAt (lf.searchIdx (fidu % 2 ^ 32)) + d.toNat),
        lf.setDisc (lf.searchIdx (fidu % 2 ^ 32))
          (lf.discAt (lf.searchIdx (fidu % 2 ^ 32)) + d.toNat)) := by
  obtain ⟨h1, h2⟩ := searchIdx_found lf (fidu % 2 ^ 32) hs hb i hi hf
  unfold update
  rw [if_pos ⟨h1, h2⟩, if_neg (by omega), if_neg (by omega)]

/-- Overwriting the discard word of a slot keeps the fid words. -/
theorem mapFst_set_snd : ∀ (l : List (Nat × Nat)) (j v : Nat),
    (l.set j ((l.getD j (0, 0)).1, v)).map Prod.fst = l.map Prod.fst := by
  intro l
  induction l with
  | nil => intro j v; rfl
  | cons x xs ih =>
    intro j v
    cases j with
    | zero => simp
    | succ m =>
      simp only [List.set, List.getD_cons_succ, List.map_cons]
      rw [ih]

theorem sorted_fidLe_iff (l : List (Nat × Nat)) :
    List.Sorted fidLe l ↔ List.Sorted (· ≤ ·) (l.map Prod.fst) := by
  constructor
  · intro h
    exact List.pairwise_map.mpr (by exact h)
  · intro h
    have h2 := List.pairwise_map.mp h
    exact h2

/-- `setDisc` inside the valid region preserves the file invariant. -/
theorem inv_setDisc (lf : DiscardStats) (j v : Nat) (hInv : Inv lf)
    (hj : j < lf.nextEmptySlot) : Inv (lf.setDisc j v) := by
  obtain ⟨hs, hz, hb⟩ := hInv
  refine ⟨?_, ?_, ?_⟩
  · show List.Sorted fidLe
      ((lf.slots.set j ((lf.slots.getD j (0, 0)).1, v % 2 ^ 64)).take lf.nextEmptySlot)
    rw [listTakeSetOfLt _ _ _ _ hj]
    rw [show (lf.slots.getD j (0, 0)).1 =
      ((lf.slots.take lf.nextEmptySlot).getD j (0, 0)).1 from by
        rw [listGetDTake _ _ _ _ hj]]
    rw [sorted_fidLe_iff] at hs ⊢
    rw [mapFst_set_snd]
    exact hs
  · show (lf.slots.set j _).getD lf.nextEmptySlot (0, 0) = (0, 0)
    rw [listGetDSetNe _ _ _ _ _ (by omega)]
    exact hz
  · show lf.nextEmptySlot < (lf.slots.set j _).length
    simpa using hb

/-- C8 single step: `Update` preserves the file invariant (the discard
argument is an int64, hence `|d| < 2^63`). -/
theorem inv_update (lf : DiscardStats) (fidu : Nat) (d : Int) (hInv : Inv lf)
    (hd : d < 2 ^ 63) : Inv (update lf fidu d).2 := by
  have hd64 : d.toNat < 2 ^ 64 := by omega
  by_cases hfound : ∃ i, i < lf.nextEmptySlot ∧ lf.fidAt i = fidu % 2 ^ 32
  · obtain ⟨i, hi, hf⟩ := hfound
    rcases lt_trichotomy d 0 with hc | hc | hc
    · rw [update_found_reset lf fidu d hInv.1 (le_of_lt hInv.2.2) i hi hf hc]
      exact inv_setDisc lf _ 0 hInv
        (searchIdx_found lf _ hInv.1 (le_of_lt hInv.2.2) i hi hf).1
    · subst hc
      rw [update_found_query lf fidu hInv.1 (le_of_lt hInv.2.2) i hi hf]
      exact hInv
    · rw [update_found_add lf fidu d hInv.1 (le_of_lt hInv.2.2) i hi hf hc]
      exact inv_setDisc lf _ _ hInv
        (searchIdx_found lf _ hInv.1 (le_of_lt hInv.2.2) i hi hf).1
  · push_neg at hfound
    have hnf : ∀ i, i < lf.nextEmptySlot → lf.fidAt i ≠ fidu % 2 ^ 32 := hfound
    rcases le_or_lt d 0 with hc | hc
    · rw [update_notfound_nonpos lf fidu d hnf hc]
      exact hInv
    · rw [update_notfound_pos lf fidu d hnf hc]
      exact (appendNew_spec lf (fidu % 2 ^ 32) d hInv
        (lt_trans (Nat.mod_lt _ (by norm_num)) (by norm_num)) hd64).2.2.2.2.2

/-- A sequence of `Update` calls, applied in order. -/
def applyUpdates (calls : List (Nat × Int)) (lf : DiscardStats) : DiscardStats :=
  calls.foldl (fun s c => (update s c.1 c.2).2) lf

theorem inv_applyUpdates (calls : List (Nat × Int)) (lf : DiscardStats) (hInv : Inv lf)
    (hall : ∀ c ∈ calls, c.2 < 2 ^ 63) : Inv (applyUpdates calls lf) := by
  induction calls generalizing lf with
  | nil => exact hInv
  | cons c cs ih =>
    exact ih _ (inv_update lf c.1 c.2 hInv (hall c (by simp)))
      (fun x hx => hall x (by simp [hx]))

theorem initFresh_eq : initFresh = ⟨List.replicate 65536 (0, 0), 0⟩ := rfl

theorem inv_initFresh : Inv initFresh := by
  rw [initFresh_eq]
  refine ⟨?_, ?_, ?_⟩
  · show List.Sorted fidLe ((List.replicate 65536 ((0 : Nat), (0 : Nat))).take 0)
    rw [List.take_zero]
    exact List.sorted_nil
  · exact listGetDReplicate _ _ _ _ (by norm_num)
  · show 0 < (List.replicate 65536 ((0 : Nat), (0 : Nat))).length
    rw [List.length_replicate]
    norm_num

theorem toI64_small (x : Nat) (h : x < 2 ^ 63) : toI64 x = (x : Int) := by
  unfold toI64
  rw [Nat.mod_eq_of_lt (by omega), if_pos (by omega)]

theorem fidAt_def (lf : DiscardStats) (i : Nat) :
    lf.fidAt i = (lf.slots.getD i (0, 0)).1 := rfl

theorem discAt_def (lf : DiscardStats) (i : Nat) :
    lf.discAt i = (lf.slots.getD i (0, 0)).2 := rfl

/-- The literal `update` sequence of spec scenario 5 on a fresh file. -/
def d7a : Int × DiscardStats := initFresh.update 42 100

def d7b : Int × DiscardStats := d7a.2.update 42 50

def d7c : Int × DiscardStats := d7b.2.update 42 0

def d7d : Int × DiscardStats := d7c.2.update 42 (-1)

def d7e : Int × DiscardStats := d7d.2.update 42 0

theorem d7a_facts :
    d7a.1 = 100 ∧ Inv d7a.2 ∧ d7a.2.nextEmptySlot = 1 ∧ d7a.2.fidAt 0 = 42 ∧
      d7a.2.discAt 0 = 100 := by
  have hN0 : initFresh.nextEmptySlot = 0 := rfl
  have hnf : ∀ i, i < initFresh.nextEmptySlot → initFresh.fidAt i ≠ 42 % 2 ^ 32 := by
    intro i hi
    rw [hN0] at hi
    omega
  have heq : d7a = appendNew initFresh (42 % 2 ^ 32) 100 :=
    update_notfound_pos _ _ _ hnf (by norm_num)
  have hspec := appendNew_spec initFresh (42 % 2 ^ 32) 100 inv_initFresh
    (by norm_num) (by norm_num)
  obtain ⟨hv, hn, htake, hsent, hlen, hinv⟩ := hspec
  rw [← heq] at hv hn htake hsent hlen hinv
  rw [hN0] at hn htake
  have htake1 : d7a.2.slots.take 1 = [(42, 100)] := by
    rw [htake, List.take_zero, List.nil_append,
      show (42 % 2 ^ 32 : Nat) = 42 from by norm_num,
      show ((100 : Int).toNat) = 100 from rfl]
    rfl
  have hlen1 : 0 < d7a.2.slots.length := by
    have := hinv.2.2
    omega
  have hfid : d7a.2.fidAt 0 = 42 := by
    rw [fidAt_def, ← listGetDTake d7a.2.slots 1 0 (0, 0) (by omega), htake1]
    rfl
  have hdisc : d7a.2.discAt 0 = 100 := by
    rw [discAt_def, ← listGetDTake d7a.2.slots 1 0 (0, 0) (by omega), htake1]
    rfl
  exact ⟨hv, hinv, hn, hfid, hdisc⟩

theorem setDisc_facts (s : DiscardStats) (v : Nat) (hv : v < 2 ^ 64)
    (hlen : 0 < s.slots.length) :
    (s.setDisc 0 v).nextEmptySlot = s.nextEmptySlot ∧
    (s.setDisc 0 v).fidAt 0 = s.fidAt 0 ∧
    (s.setDisc 0 v).discAt 0 = v ∧
    (s.setDisc 0 v).slots.length = s.slots.length := by
  refine ⟨rfl, ?_, ?_, by simp [setDisc]⟩
  · show ((s.slots.set 0 _).getD 0 (0, 0)).1 = _
    rw [listGetDSetSelf _ _ _ _ hlen, fidAt_def]
  · show ((s.slots.set 0 _).getD 0 (0, 0)).2 = v
    rw [listGetDSetSelf _ _ _ _ hlen]
    exact Nat.mod_eq_of_lt hv


/-- The per-step behaviour of the scenario: all five calls hit the single
valid slot 0 holding fid 42. -/
theorem found_step (s : DiscardStats) (hInv : Inv s) (hn : s.nextEmptySlot = 1)
    (hf : s.fidAt 0 = 42) :
    (∀ d : Int, 0 < d → s.update 42 d =
      (toI64 (s.discAt 0 + d.toNat), s.setDisc 0 (s.discAt 0 + d.toNat))) ∧
    (s.update 42 0 = (toI64 (s.discAt 0), s)) ∧
    (∀ d : Int, d < 0 → s.update 42 d = (0, s.setDisc 0 0)) := by
  have hf2 : s.fidAt 0 = 42 % 2 ^ 32 := by rw [hf]; norm_num
  have hj := searchIdx_found s (42 % 2 ^ 32) hInv.1 (le_of_lt hInv.2.2) 0 (by omega) hf2
  have hj0 : s.searchIdx (42 % 2 ^ 32) = 0 := by omega
  refine ⟨?_, ?_, ?_⟩
  · intro d hd
    rw [update_found_add s 42 d hInv.1 (le_of_lt hInv.2.2) 0 (by omega) hf2 hd, hj0]
  · rw [update_found_query s 42 hInv.1 (le_of_lt hInv.2.2) 0 (by omega) hf2, hj0]
  · intro d hd
    rw [update_found_reset s 42 d hInv.1 (le_of_lt hInv.2.2) 0 (by omega) hf2 hd, hj0]

theorem d7_chain :
    d7a.1 = 100 ∧ d7b.1 = 150 ∧ d7c.1 = 150 ∧ d7d.1 = 0 ∧ d7e.1 = 0 := by
  obtain ⟨ha1, haInv, haN, haF, haD⟩ := d7a_facts
  have hlenA : 0 < d7a.2.slots.length := by
    have := haInv.2.2
    omega
  obtain ⟨hadd, hq, hres⟩ := found_step d7a.2 haInv haN haF
  -- second call: +50
  have hb_eq : d7b = (150, d7a.2.setDisc 0 150) := by
    show d7a.2.update 42 50 = _
    rw [hadd 50 (by norm_num), haD]
    norm_num
    rw [show ((50 : Int).toNat : Nat) = 50 from rfl, toI64_small _ (by norm_num)]
    norm_num
  have hb2 : d7b.2 = d7a.2.setDisc 0 150 := by rw [hb_eq]
  obtain ⟨hbN, hbF, hbD, hbL⟩ := setDisc_facts d7a.2 150 (by norm_num) hlenA
  have hbInv : Inv (d7a.2.setDisc 0 150) := inv_setDisc d7a.2 0 150 haInv (by omega)
  obtain ⟨hadd2, hq2, hres2⟩ := found_step (d7a.2.setDisc 0 150) hbInv
    (by rw [hbN, haN]) (by rw [hbF, haF])
  -- third call: query
  have hc_eq : d7c = (150, d7a.2.setDisc 0 150) := by
    show d7b.2.update 42 0 = _
    rw [hb2, hq2, hbD, toI64_small _ (by norm_num)]
    norm_num
  have hc2 : d7c.2 = d7a.2.setDisc 0 150 := by rw [hc_eq]
  -- fourth call: reset
  have hd_eq : d7d = (0, (d7a.2.setDisc 0 150).setDisc 0 0) := by
    show d7c.2.update 42 (-1) = _
    rw [hc2, hres2 (-1) (by norm_num)]
  have hd2 : d7d.2 = (d7a.2.setDisc 0 150).setDisc 0 0 := by rw [hd_eq]
  have hlenB : 0 < (d7a.2.setDisc 0 150).slots.length := by
    rw [hbL]
    exact hlenA
  obtain ⟨hdN, hdF, hdD, hdL⟩ := setDisc_facts (d7a.2.setDisc 0 150) 0 (by norm_num) hlenB
  have hdInv : Inv ((d7a.2.setDisc 0 150).setDisc 0 0) :=
    inv_setDisc _ 0 0 hbInv (by rw [hbN, haN]; omega)
  obtain ⟨hadd4, hq4, hres4⟩ := found_step ((d7a.2.setDisc 0 150).setDisc 0 0) hdInv
    (by rw [hdN, hbN, haN]) (by rw [hdF, hbF, haF])
  -- fifth call: query of the reset value
  have he_eq : d7e = (0, (d7a.2.setDisc 0 150).setDisc 0 0) := by
    show d7d.2.update 42 0 = _
    rw [hd2, hq4, hdD, toI64_small _ (by norm_num)]
    norm_num
  exact ⟨ha1, by rw [hb_eq], by rw [hc_eq], by rw [hd_eq], by rw [he_eq]⟩

theorem setDisc_slots (lf : DiscardStats) (j v : Nat) :
    (lf.setDisc j v).slots = lf.slots.set j ((lf.slots.getD j (0, 0)).1, v % 2 ^ 64) := rfl

theorem setDisc_next (lf : DiscardStats) (j v : Nat) :
    (lf.setDisc j v).nextEmptySlot = lf.nextEmptySlot := rfl

/-- The behaviour `Update(fid, discard)` is claimed to have (claim C7),
as a predicate of the file state and the fid argument. -/
def UpdateBehaviour (lf : DiscardStats) (fidu : Nat) : Prop :=
  ((∃ i, i < lf.nextEmptySlot ∧ lf.fidAt i = fidu % 2 ^ 32) →
    ∃ j, j < lf.nextEmptySlot ∧ lf.fidAt j = fidu % 2 ^ 32 ∧
      (lf.discAt j < 2 ^ 63 → update lf fidu 0 = ((lf.discAt j : Int), lf)) ∧
      (∀ d : Int, d < 0 → update lf fidu d = (0, lf.setDisc j 0)) ∧
      (∀ d : Int, 0 < d → lf.discAt j + d.toNat < 2 ^ 63 →
        update lf fidu d =
          (((lf.discAt j + d.toNat : Nat) : Int),
            lf.setDisc j (lf.discAt j + d.toNat)))) ∧
  ((∀ i, i < lf.nextEmptySlot → lf.fidAt i ≠ fidu % 2 ^ 32) →
    (∀ d : Int, d ≤ 0 → update lf fidu d = (0, lf)) ∧
    (∀ d : Int, 0 < d → d < 2 ^ 63 →
      (update lf fidu d).1 = d ∧
      (update lf fidu d).2.nextEmptySlot = lf.nextEmptySlot + 1 ∧
      (update lf fidu d).2.slots.take (lf.nextEmptySlot + 1) =
        (lf.slots.take lf.nextEmptySlot
          ++ [(fidu % 2 ^ 32, d.toNat)]).insertionSort fidLe ∧
      (update lf fidu d).2.slots.getD (lf.nextEmptySlot + 1) (0, 0) = (0, 0) ∧
      (if lf.nextEmptySlot + 1 = lf.slots.length
        then (update lf fidu d).2.slots.length = 2 * lf.slots.length
        else (update lf fidu d).2.slots.length = lf.slots.length)))

/-- C7: `DiscardStats.Update(fid, discard)`.  If a slot with that fid
exists in the valid region: `discard = 0` returns the current discard
value, `discard < 0` sets it to 0 and returns 0, `discard > 0` sets it to
current + discard and returns the new value.  If no such slot exists:
`discard ≤ 0` returns 0 without allocating; `discard > 0` appends a new
slot `(fid, discard)` at `nextEmptySlot`, increments `nextEmptySlot`,
doubles the file exactly when capacity is reached, zeroes the sentinel
slot and re-sorts the valid region, and returns `discard`.  On a fresh
file, `update(42,100) = 100`, then `update(42,50) = 150`,
`update(42,0) = 150`, `update(42,-1) = 0`, `update(42,0) = 0`. -/
theorem claim_C7_update (lf : DiscardStats) (fidu : Nat) (hInv : Inv lf) :
    UpdateBehaviour lf fidu ∧
      (d7a.1 = 100 ∧ d7b.1 = 150 ∧ d7c.1 = 150 ∧ d7d.1 = 0 ∧ d7e.1 = 0) := by
  have hb := le_of_lt hInv.2.2
  refine ⟨⟨?_, ?_⟩, d7_chain⟩
  · rintro ⟨i, hi, hf⟩
    have hsf := searchIdx_found lf (fidu % 2 ^ 32) hInv.1 hb i hi hf
    refine ⟨lf.searchIdx (fidu % 2 ^ 32), hsf.1, hsf.2, ?_, ?_, ?_⟩
    · intro hlt
      rw [update_found_query lf fidu hInv.1 hb i hi hf, toI64_small _ hlt]
    · intro d hd
      exact update_found_reset lf fidu d hInv.1 hb i hi hf hd
    · intro d hd hlt
      rw [update_found_add lf fidu d hInv.1 hb i hi hf hd, toI64_small _ hlt]
  · intro hnf
    refine ⟨fun d hd => update_notfound_nonpos lf fidu d hnf hd, ?_⟩
    intro d hd hd63
    rw [update_notfound_pos lf fidu d hnf hd]
    have hspec := appendNew_spec lf (fidu % 2 ^ 32) d hInv
      (lt_trans (Nat.mod_lt _ (by norm_num)) (by norm_num)) (by omega)
    exact ⟨hspec.1, hspec.2.1, hspec.2.2.1, hspec.2.2.2.1, hspec.2.2.2.2.1⟩

theorem claim_C7_update_witness :
    UpdateBehaviour initFresh 42 ∧
      (d7a.1 = 100 ∧ d7b.1 = 150 ∧ d7c.1 = 150 ∧ d7d.1 = 0 ∧ d7e.1 = 0) :=
  claim_C7_update initFresh 42 inv_initFresh

/-- C8: the `DISCARD` file invariant — valid slots sorted by fid
ascending and a zeroed sentinel inside the mapping — holds after opening
a fresh file and is preserved by every `Update` call (with an int64
discard argument), hence by every sequence of such calls, including the
growing ones. -/
theorem claim_C8_inv :
    Inv initFresh ∧
    (∀ (lf : DiscardStats) (fidu : Nat) (d : Int), Inv lf → d < 2 ^ 63 →
      Inv (update lf fidu d).2) ∧
    (∀ (calls : List (Nat × Int)) (lf : DiscardStats), Inv lf →
      (∀ c ∈ calls, c.2 < 2 ^ 63) → Inv (applyUpdates calls lf)) :=
  ⟨inv_initFresh, fun lf fidu d h hd => inv_update lf fidu d h hd,
    fun calls lf h hall => inv_applyUpdates calls lf h hall⟩

theorem claim_C8_inv_witness :
    Inv (applyUpdates [(42, 100), (7, 200)] initFresh) :=
  claim_C8_inv.2.2 [(42, 100), (7, 200)] initFresh inv_initFresh (by decide)

/-- The frame property `Update` is claimed to have when the fid is
already present (claim C10). -/
def UpdateFrame (lf : DiscardStats) (fidu : Nat) (d : Int) : Prop :=
  ∃ j d2, j < lf.nextEmptySlot ∧ lf.fidAt j = fidu % 2 ^ 32 ∧
    (update lf fidu d).2.slots = lf.slots.set j ((lf.slots.getD j (0, 0)).1, d2) ∧
    (update lf fidu d).2.nextEmptySlot = lf.nextEmptySlot ∧
    (update lf fidu d).2.slots.length = lf.slots.length

/-- C10: when the valid region already holds a slot for `fid`,
`Update(fid, discard)` — for any discard value — modifies at most the
discard word of that one slot: its fid word, every other slot, the
`nextEmptySlot` index and the file length are unchanged. -/
theorem claim_C10_frame (lf : DiscardStats) (fidu : Nat) (d : Int) (hInv : Inv lf)
    (i : Nat) (hi : i < lf.nextEmptySlot) (hf : lf.fidAt i = fidu % 2 ^ 32) :
    UpdateFrame lf fidu d := by
  have hb := le_of_lt hInv.2.2
  have hsf := searchIdx_found lf (fidu % 2 ^ 32) hInv.1 hb i hi hf
  rcases lt_trichotomy d 0 with hc | hc | hc
  · refine ⟨lf.searchIdx (fidu % 2 ^ 32), 0 % 2 ^ 64, hsf.1, hsf.2, ?_, ?_, ?_⟩
    · rw [update_found_reset lf fidu d hInv.1 hb i hi hf hc, setDisc_slots]
    · rw [update_found_reset lf fidu d hInv.1 hb i hi hf hc, setDisc_next]
    · rw [update_found_reset lf fidu d hInv.1 hb i hi hf hc, setDisc_slots]
      simp
  · subst hc
    refine ⟨lf.searchIdx (fidu % 2 ^ 32),
      (lf.slots.getD (lf.searchIdx (fidu % 2 ^ 32)) (0, 0)).2, hsf.1, hsf.2, ?_, ?_, ?_⟩
    · rw [update_found_query lf fidu hInv.1 hb i hi hf]
      rw [show ((lf.slots.getD (lf.searchIdx (fidu % 2 ^ 32)) (0, 0)).1,
        (lf.slots.getD (lf.searchIdx (fidu % 2 ^ 32)) (0, 0)).2) =
        lf.slots.getD (lf.searchIdx (fidu % 2 ^ 32)) (0, 0) from rfl]
      rw [listSetGetDSame]
    · rw [update_found_query lf fidu hInv.1 hb i hi hf]
    · rw [update_found_query lf fidu hInv.1 hb i hi hf]
  · refine ⟨lf.searchIdx (fidu % 2 ^ 32),
      (lf.discAt (lf.searchIdx (fidu % 2 ^ 32)) + d.toNat) % 2 ^ 64, hsf.1, hsf.2,
      ?_, ?_, ?_⟩
    · rw [update_found_add lf fidu d hInv.1 hb i hi hf hc, setDisc_slots]
    · rw [update_found_add lf fidu d hInv.1 hb i hi hf hc, setDisc_next]
    · rw [update_found_add lf fidu d hInv.1 hb i hi hf hc, setDisc_slots]
      simp

theorem claim_C10_frame_witness :
    Inv d7a.2 ∧ 0 < d7a.2.nextEmptySlot ∧ d7a.2.fidAt 0 = 42 % 2 ^ 32 ∧
      UpdateFrame d7a.2 42 7 := by
  obtain ⟨_, hInv, hN, hF, _⟩ := d7a_facts
  refine ⟨hInv, by omega, by rw [hF]; norm_num, ?_⟩
  exact claim_C10_frame d7a.2 42 7 hInv 0 (by omega) (by rw [hF]; norm_num)

end DiscardStats

/-! ### LevelHandler (`level_handler.go`)

The table objects are external collaborators; their contract is spec §6.
A table is modelled by its observable interface: id, bounds, sizes, the
sorted entry sequence its iterator yields, the inverted bloom filter
`DoesNotHave`, and the outcomes of its `Close`/`DecrRef` calls. -/

/-- Modelled from the spec: the external `Value` record (§6), a version
plus opaque payload; `y.ValueStruct` with `ValueCopy` semantics. -/
structure ValueStruct where
  value : List Nat := []
  version : Nat := 0
deriving DecidableEq, Repr

/-- Modelled from the spec: the external `table.Table` contract (§6). -/
structure Table where
  id : Nat := 0
  entries : List (Key × ValueStruct) := []
  smallest : Key := ⟨[], 0⟩
  biggest : Key := ⟨[], 0⟩
  size : Int := 0
  staleDataSize : Nat := 0
  doesNotHave : Nat → Bool := fun _ => false
  closeErr : Option String := none
  decrRefErr : Option String := none

def dummyTable : Table := {}

/-- `levelHandler`: the mutable per-level state (`tables`, `totalSize`,
`totalStaleSize`) plus the constant `level`. -/
structure LevelHandler where
  tables : List Table
  totalSize : Int
  totalStaleSize : Int
  level : Nat

namespace LevelHandler

/-- `s.addSize(t)`. -/
def addSize (s : LevelHandler) (t : Table) : LevelHandler :=
  { s with totalSize := s.totalSize + t.size,
           totalStaleSize := s.totalStaleSize + (t.staleDataSize : Int) }

/-- `s.subtractSize(t)`. -/
def subtractSize (s : LevelHandler) (t : Table) : LevelHandler :=
  { s with totalSize := s.totalSize - t.size,
           totalStaleSize := s.totalStaleSize - (t.staleDataSize : Int) }

/-- The `sort.Slice` order of L≥1: ascending `Smallest()`. -/
def tableLe (a b : Table) : Prop := a.smallest ≤ b.smallest

instance : DecidableRel tableLe := fun a b =>
  inferInstanceAs (Decidable (a.smallest ≤ b.smallest))

instance : IsTotal Table tableLe := ⟨fun a b => le_total a.smallest b.smallest⟩

instance : IsTrans Table tableLe := ⟨fun _ _ _ => le_trans⟩

/-- The `sort.Slice` order of L0 in `initTables`: ascending file id. -/
def tableIdLe (a b : Table) : Prop := a.id ≤ b.id

instance : DecidableRel tableIdLe := fun a b => Nat.decLe a.id b.id

instance : IsTotal Table tableIdLe := ⟨fun a b => Nat.le_total a.id b.id⟩

instance : IsTrans Table tableIdLe := ⟨fun _ _ _ => Nat.le_trans⟩

/-- `initTables`: replace the set, recompute the sizes, sort by id for
L0 and by smallest key for L≥1. -/
def initTables (s : LevelHandler) (ts : List Table) : LevelHandler :=
  let s1 : LevelHandler := { s with tables := ts, totalSize := 0, totalStaleSize := 0 }
  let s2 : LevelHandler := ts.foldl addSize s1
  if s2.level = 0 then { s2 with tables := s2.tables.insertionSort tableIdLe }
  else { s2 with tables := s2.tables.insertionSort tableLe }

/-- `decrRefs`: DecrRef the tables in order, stopping at the first
error, which is returned unwrapped.  The second component is the list of
ids on which `DecrRef` was actually invoked. -/
def decrRefs : List Table → Option String × List Nat
  | [] => (none, [])
  | t :: ts =>
    match t.decrRefErr with
    | some e => (some e, [t.id])
    | none =>
      let r := decrRefs ts
      (r.1, t.id :: r.2)

/-- `deleteTables`: drop the tables whose id is in `toDel`, subtracting
their sizes, then (after unlocking) `decrRefs(toDel)`. -/
def deleteTables (s : LevelHandler) (toDel : List Table) :
    LevelHandler × Option String × List Nat :=
  let delIds := toDel.map Table.id
  let removed := s.tables.filter (fun t => delIds.contains t.id)
  let kept := s.tables.filter (fun t => !(delIds.contains t.id))
  let s1 : LevelHandler := { removed.foldl subtractSize s with tables := kept }
  (s1, decrRefs toDel)

/-- `replaceTables`: drop `toDel` by id, add each of `toAdd` (sizes and a
ref), re-sort by smallest key, then `decrRefs(toDel)`. -/
def replaceTables (s : LevelHandler) (toDel toAdd : List Table) :
    LevelHandler × Option String × List Nat :=
  let delIds := toDel.map Table.id
  let removed := s.tables.filter (fun t => delIds.contains t.id)
  let kept := s.tables.filter (fun t => !(delIds.contains t.id))
  let s1 : LevelHandler := removed.foldl subtractSize s
  let s2 : LevelHandler := toAdd.foldl addSize s1
  let s3 : LevelHandler := { s2 with tables := (kept ++ toAdd).insertionSort tableLe }
  (s3, decrRefs toDel)

/-- `addTable`: append without sorting (stream-writer path). -/
def addTable (s : LevelHandler) (t : Table) : LevelHandler :=
  { addSize s t with tables := s.tables ++ [t] }

/-- `sortTables`: sort by smallest key. -/
def sortTables (s : LevelHandler) : LevelHandler :=
  { s with tables := s.tables.insertionSort tableLe }

/-- `tryAddLevel0Table`: asserts level 0 (modelled as `none` on other
levels); stalls by returning `false` when the table count has reached
`NumLevelZeroTablesStall`, else appends at the back, refs and adds
sizes.  The trace lists the ids passed to `IncrRef`. -/
def tryAddLevel0Table (stall : Nat) (s : LevelHandler) (t : Table) :
    Option (Bool × LevelHandler × List Nat) :=
  if s.level = 0 then
    some (if s.tables.length ≥ stall then (false, s, [])
      else (true, addSize { s with tables := s.tables ++ [t] } t, [t.id]))
  else none

/-- Modelled from the spec: `y.Wrap` (§7) wraps a non-nil error with the
subsystem name and leaves nil alone. -/
def wrapErr (e : Option String) (msg : String) : Option String :=
  match e with
  | none => none
  | some s => some (msg ++ ": " ++ s)

/-- The `for` loop of `levelHandler.close`: every table's `Close(-1)` is
attempted; the first error is remembered.  The trace lists the ids on
which `Close` was invoked. -/
def closeAll : List Table → Option String × List Nat
  | [] => (none, [])
  | t :: ts =>
    let r := closeAll ts
    ((match t.closeErr with
      | some e => some e
      | none => r.1), t.id :: r.2)

/-- `levelHandler.close`: close every table, returning the first error
wrapped with `"levelHandler.close"`. -/
def lhClose (s : LevelHandler) : Option String × List Nat :=
  let r := closeAll s.tables
  (wrapErr r.1 "levelHandler.close", r.2)

/-- `getTableForKey`: every L0 table in reverse order, or the unique
L≥1 table found by binary search on `Biggest()`. -/
def getTableForKey (s : LevelHandler) (key : Key) : List Table :=
  if s.level = 0 then s.tables.reverse
  else
    let idx := goSearch s.tables.length
      (fun i => decide (key ≤ (s.tables.getD i dummyTable).biggest))
    if s.tables.length ≤ idx then []
    else [s.tables.getD idx dummyTable]

/-- Modelled from the spec: the external table iterator's `Seek` (§6)
positions at the least entry whose key is ≥ the sought key. -/
def tableSeek (t : Table) (k : Key) : Option (Key × ValueStruct) :=
  t.entries.find? (fun e => decide (k ≤ e.1))

/-- One iteration of the candidate loop in `levelHandler.get`: skip on a
bloom miss, seek, and keep the value with the largest version. -/
def getStep (hash : List Nat → Nat) (k : Key) (maxVs : ValueStruct) (th : Table) :
    ValueStruct :=
  if th.doesNotHave (hash k.userKey) then maxVs
  else
    match tableSeek th k with
    | none => maxVs
    | some e =>
      if sameKey k e.1 then
        if maxVs.version < e.1.version then { e.2 with version := e.1.version }
        else maxVs
      else maxVs

/-- `levelHandler.get`, parametric in the external hash function. -/
def lhGet (hash : List Nat → Nat) (s : LevelHandler) (k : Key) : ValueStruct :=
  (getTableForKey s k).foldl (getStep hash k) ⟨[], 0⟩

/-- `overlappingTables` on a key range whose endpoints are `none` when
the corresponding byte slice is empty. -/
def overlappingTables (s : LevelHandler) (kl kr : Option Key) : Nat × Nat :=
  match kl, kr with
  | some l, some r =>
    (goSearch s.tables.length
      (fun i => decide (l ≤ (s.tables.getD i dummyTable).biggest)),
     goSearch s.tables.length
      (fun i => decide (r < (s.tables.getD i dummyTable).smallest)))
  | _, _ => (0, 0)

/-- Pairwise-disjoint key ranges. -/
def disjointT (a b : Table) : Prop := a.biggest < b.smallest ∨ b.biggest < a.smallest

instance : DecidableRel disjointT := fun a b =>
  inferInstanceAs (Decidable (_ ∨ _))

/-- The behaviour `tryAddLevel0Table` is claimed to have (claim C4). -/
def TryAddBehaviour (stall : Nat) (s : LevelHandler) (t : Table) : Prop :=
  (stall ≤ s.tables.length →
    tryAddLevel0Table stall s t = some (false, s, [])) ∧
  (s.tables.length < stall →
    tryAddLevel0Table stall s t =
      some (true,
        { s with tables := s.tables ++ [t],
                 totalSize := s.totalSize + t.size,
                 totalStaleSize := s.totalStaleSize + (t.staleDataSize : Int) },
        [t.id]))

/-- C4: on a level-0 handler, `tryAddLevel0Table(t)` returns false and
changes nothing (no table, no sizes, no ref) when the table count has
reached `NumLevelZeroTablesStall`; otherwise it appends `t` at the back
without resorting, takes a reference on `t`, adds its sizes and returns
true. -/
theorem claim_C4_tryAdd (stall : Nat) (s : LevelHandler) (t : Table)
    (h0 : s.level = 0) : TryAddBehaviour stall s t := by
  constructor
  · intro h
    unfold tryAddLevel0Table
    rw [if_pos h0, if_pos (by omega)]
  · intro h
    unfold tryAddLevel0Table
    rw [if_pos h0, if_neg (by omega)]
    rfl

def lhW0 : LevelHandler := ⟨[], 0, 0, 0⟩

def tW : Table := { id := 7 }

theorem claim_C4_tryAdd_witness : lhW0.level = 0 ∧ TryAddBehaviour 3 lhW0 tW :=
  ⟨rfl, claim_C4_tryAdd 3 lhW0 tW rfl⟩

/-- The conclusion claimed for `overlappingTables` (claim C6): empty
endpoints give `(0, 0)`; otherwise the left index is the least whose
table's `Biggest()` is ≥ `kr.left` and the right index the least whose
table's `Smallest()` is strictly greater than `kr.right`. -/
def OverlapSpec (s : LevelHandler) (l r : Key) : Prop :=
  (∀ kr : Option Key, overlappingTables s none kr = (0, 0)) ∧
  (∀ kl : Option Key, overlappingTables s kl none = (0, 0)) ∧
  ((overlappingTables s (some l) (some r)).1 ≤ s.tables.length ∧
    (∀ a, a < (overlappingTables s (some l) (some r)).1 →
      ¬ l ≤ (s.tables.getD a dummyTable).biggest) ∧
    ((overlappingTables s (some l) (some r)).1 < s.tables.length →
      l ≤ (s.tables.getD ((overlappingTables s (some l) (some r)).1) dummyTable).biggest)) ∧
  ((overlappingTables s (some l) (some r)).2 ≤ s.tables.length ∧
    (∀ a, a < (overlappingTables s (some l) (some r)).2 →
      ¬ r < (s.tables.getD a dummyTable).smallest) ∧
    ((overlappingTables s (some l) (some r)).2 < s.tables.length →
      r < (s.tables.getD ((overlappingTables s (some l) (some r)).2) dummyTable).smallest))

/-- Monotone `Smallest()` along a sorted table list. -/
theorem smallest_mono (s : LevelHandler) (hs : List.Sorted tableLe s.tables) :
    ∀ a b, a ≤ b → b < s.tables.length →
      (s.tables.getD a dummyTable).smallest ≤ (s.tables.getD b dummyTable).smallest := by
  intro a b hab hbn
  rcases Nat.eq_or_lt_of_le hab with h | h
  · subst h; exact le_refl _
  · have hp := List.pairwise_iff_getElem.mp hs a b (by omega) (by omega) h
    rw [listGetDEqGetElem _ _ _ (by omega), listGetDEqGetElem _ _ _ (by omega)]
    exact hp

/-- Monotone `Biggest()` along a sorted, pairwise-disjoint table list of
proper tables. -/
theorem biggest_mono (s : LevelHandler) (hs : List.Sorted tableLe s.tables)
    (hd : List.Pairwise disjointT s.tables)
    (hp : ∀ t ∈ s.tables, t.smallest ≤ t.biggest) :
    ∀ a b, a ≤ b → b < s.tables.length →
      (s.tables.getD a dummyTable).biggest ≤ (s.tables.getD b dummyTable).biggest := by
  intro a b hab hbn
  rcases Nat.eq_or_lt_of_le hab with h | h
  · subst h; exact le_refl _
  · have hsm := List.pairwise_iff_getElem.mp hs a b (by omega) (by omega) h
    have hdj := List.pairwise_iff_getElem.mp hd a b (by omega) (by omega) h
    have hia : a < s.tables.length := by omega
    have hib : b < s.tables.length := by omega
    have hpa := hp (s.tables[a]) (by exact List.getElem_mem _)
    have hpb := hp (s.tables[b]) (by exact List.getElem_mem _)
    rw [listGetDEqGetElem _ _ _ (by omega), listGetDEqGetElem _ _ _ (by omega)]
    rcases hdj with hcase | hcase
    · exact le_trans (le_of_lt hcase) hpb
    · exact absurd (lt_of_le_of_lt (le_trans hsm hpb) hcase) (lt_irrefl _)

/-- C6: for a handler whose tables are sorted by `Smallest()` with
pairwise-disjoint proper ranges, `overlappingTables` returns `(0, 0)` on
an empty endpoint and otherwise the pair of least indices whose
`Biggest() ≥ kr.left`, resp. `Smallest() > kr.right`. -/
theorem claim_C6_overlapping (s : LevelHandler) (l r : Key)
    (hs : List.Sorted tableLe s.tables)
    (hd : List.Pairwise disjointT s.tables)
    (hp : ∀ t ∈ s.tables, t.smallest ≤ t.biggest) :
    OverlapSpec s l r := by
  have hmono1 : ∀ a b, a ≤ b → b < s.tables.length →
      decide (l ≤ (s.tables.getD a dummyTable).biggest) = true →
      decide (l ≤ (s.tables.getD b dummyTable).biggest) = true := by
    intro a b hab hbn ha
    simp only [decide_eq_true_eq] at ha ⊢
    exact le_trans ha (biggest_mono s hs hd hp a b hab hbn)
  have hmono2 : ∀ a b, a ≤ b → b < s.tables.length →
      decide (r < (s.tables.getD a dummyTable).smallest) = true →
      decide (r < (s.tables.getD b dummyTable).smallest) = true := by
    intro a b hab hbn ha
    simp only [decide_eq_true_eq] at ha ⊢
    exact lt_of_lt_of_le ha (smallest_mono s hs a b hab hbn)
  obtain ⟨ha1, ha2, ha3⟩ := goSearch_spec _ s.tables.length hmono1
  obtain ⟨hb1, hb2, hb3⟩ := goSearch_spec _ s.tables.length hmono2
  unfold OverlapSpec
  have hov : overlappingTables s (some l) (some r) =
      (goSearch s.tables.length (fun i => decide (l ≤ (s.tables.getD i dummyTable).biggest)),
       goSearch s.tables.length (fun i => decide (r < (s.tables.getD i dummyTable).smallest))) :=
    rfl
  rw [hov]
  refine ⟨fun kr => by cases kr <;> rfl, fun kl => by cases kl <;> rfl,
    ⟨ha1, ?_, ?_⟩, ⟨hb1, ?_, ?_⟩⟩
  · intro a hamem
    have := ha2 a hamem
    simpa using this
  · intro hlt
    have := ha3 hlt
    simpa using this
  · intro a hamem
    have := hb2 a hamem
    simpa using this
  · intro hlt
    have := hb3 hlt
    simpa using this

def tO1 : Table := { id := 1, smallest := ⟨[1], 0⟩, biggest := ⟨[2], 0⟩ }

def tO2 : Table := { id := 2, smallest := ⟨[4], 0⟩, biggest := ⟨[5], 0⟩ }

def lhO : LevelHandler := ⟨[tO1, tO2], 0, 0, 1⟩

theorem claim_C6_overlapping_witness :
    List.Sorted tableLe lhO.tables ∧ List.Pairwise disjointT lhO.tables ∧
      (∀ t ∈ lhO.tables, t.smallest ≤ t.biggest) ∧
      OverlapSpec lhO ⟨[2], 5⟩ ⟨[4], 9⟩ := by
  have hs : List.Sorted tableLe lhO.tables := by
    unfold lhO tO1 tO2
    simp only [List.sorted_cons, List.mem_singleton, List.mem_cons]
    refine ⟨?_, by simp [List.Sorted]⟩
    intro b hb
    rcases hb with hb | hb
    · subst hb; decide
    · simp at hb
  have hd : List.Pairwise disjointT lhO.tables := by
    unfold lhO tO1 tO2
    refine List.Pairwise.cons ?_ ?_
    · intro b hb
      rcases List.mem_singleton.mp hb with hb
      subst hb
      left
      decide
    · exact List.pairwise_singleton _ _
  have hp : ∀ t ∈ lhO.tables, t.smallest ≤ t.biggest := by
    intro t ht
    unfold lhO tO1 tO2 at ht
    rcases List.mem_cons.mp ht with h | h
    · subst h; decide
    · rcases List.mem_singleton.mp h with h
      subst h; decide
  exact ⟨hs, hd, hp, claim_C6_overlapping lhO _ _ hs hd hp⟩

/-! #### Claim C5: invariants of the structural operations -/

/-- The structural operations of claim C5. -/
inductive LhOp where
  | init (ts : List Table)
  | add (t : Table)
  | sortT
  | replace (toDel toAdd : List Table)
  | delete (toDel : List Table)

def applyOp (s : LevelHandler) : LhOp → LevelHandler
  | .init ts => initTables s ts
  | .add t => addTable s t
  | .sortT => sortTables s
  | .replace a b => (replaceTables s a b).1
  | .delete a => (deleteTables s a).1

def applyOps (s : LevelHandler) (ops : List LhOp) : LevelHandler :=
  ops.foldl applyOp s

/-- The size bookkeeping invariant. -/
def SizeInv (s : LevelHandler) : Prop :=
  s.totalSize = (s.tables.map Table.size).sum ∧
  s.totalStaleSize = (s.tables.map (fun t => (t.staleDataSize : Int))).sum

/-- The L≥1 range invariant: sorted by `Smallest()`, pairwise disjoint. -/
def TInv (s : LevelHandler) : Prop :=
  List.Sorted tableLe s.tables ∧ List.Pairwise disjointT s.tables

theorem disjointT_symm : Symmetric disjointT := fun _ _ h => h.elim Or.inr Or.inl

theorem foldl_addSize (ts : List Table) : ∀ s : LevelHandler,
    (ts.foldl addSize s).totalSize = s.totalSize + (ts.map Table.size).sum ∧
    (ts.foldl addSize s).totalStaleSize
      = s.totalStaleSize + (ts.map (fun t => (t.staleDataSize : Int))).sum ∧
    (ts.foldl addSize s).tables = s.tables ∧
    (ts.foldl addSize s).level = s.level := by
  induction ts with
  | nil => intro s; simp
  | cons t ts ih =>
    intro s
    obtain ⟨h1, h2, h3, h4⟩ := ih (addSize s t)
    rw [List.foldl_cons]
    refine ⟨?_, ?_, h3, h4⟩
    · rw [h1]
      show s.totalSize + t.size + _ = _
      rw [List.map_cons, List.sum_cons]
      ring
    · rw [h2]
      show s.totalStaleSize + (t.staleDataSize : Int) + _ = _
      rw [List.map_cons, List.sum_cons]
      ring

theorem foldl_subtractSize (ts : List Table) : ∀ s : LevelHandler,
    (ts.foldl subtractSize s).totalSize = s.totalSize - (ts.map Table.size).sum ∧
    (ts.foldl subtractSize s).totalStaleSize
      = s.totalStaleSize - (ts.map (fun t => (t.staleDataSize : Int))).sum ∧
    (ts.foldl subtractSize s).tables = s.tables ∧
    (ts.foldl subtractSize s).level = s.level := by
  induction ts with
  | nil => intro s; simp
  | cons t ts ih =>
    intro s
    obtain ⟨h1, h2, h3, h4⟩ := ih (subtractSize s t)
    rw [List.foldl_cons]
    refine ⟨?_, ?_, h3, h4⟩
    · rw [h1]
      show s.totalSize - t.size - _ = _
      rw [List.map_cons, List.sum_cons]
      ring
    · rw [h2]
      show s.totalStaleSize - (t.staleDataSize : Int) - _ = _
      rw [List.map_cons, List.sum_cons]
      ring

theorem sumSplit (l : List Table) (p : Table → Bool) (f : Table → Int) :
    ((l.filter p).map f).sum + ((l.filter (fun x => !(p x))).map f).sum
      = (l.map f).sum := by
  induction l with
  | nil => simp
  | cons x xs ih =>
    by_cases hp : p x
    · rw [List.filter_cons_of_pos hp, List.filter_cons_of_neg (by simp [hp]),
        List.map_cons, List.sum_cons, List.map_cons, List.sum_cons]
      rw [← ih]
      ring
    · rw [List.filter_cons_of_neg (by simpa using hp),
        List.filter_cons_of_pos (by simp [hp]),
        List.map_cons, List.sum_cons, List.map_cons, List.sum_cons]
      rw [← ih]
      ring

theorem permSum (l l' : List Table) (h : l.Perm l') (f : Table → Int) :
    (l.map f).sum = (l'.map f).sum :=
  (h.map f).sum_eq

theorem sizeInv_applyOp (s : LevelHandler) (op : LhOp) (h : SizeInv s) :
    SizeInv (applyOp s op) := by
  obtain ⟨h1, h2⟩ := h
  cases op with
  | init ts =>
    show SizeInv (initTables s ts)
    unfold initTables SizeInv
    dsimp only
    obtain ⟨g1, g2, g3, g4⟩ := foldl_addSize ts
      { s with tables := ts, totalSize := 0, totalStaleSize := 0 }
    split_ifs with hl
    · refine ⟨?_, ?_⟩
      · show (ts.foldl addSize _).totalSize = _
        rw [g1, g3, permSum _ _ (List.perm_insertionSort tableIdLe ts).symm]
        simp
      · show (ts.foldl addSize _).totalStaleSize = _
        rw [g2, g3, permSum _ _ (List.perm_insertionSort tableIdLe ts).symm]
        simp
    · refine ⟨?_, ?_⟩
      · show (ts.foldl addSize _).totalSize = _
        rw [g1, g3, permSum _ _ (List.perm_insertionSort tableLe ts).symm]
        simp
      · show (ts.foldl addSize _).totalStaleSize = _
        rw [g2, g3, permSum _ _ (List.perm_insertionSort tableLe ts).symm]
        simp
  | add t =>
    show SizeInv (addTable s t)
    unfold addTable addSize SizeInv
    constructor
    · show s.totalSize + t.size = ((s.tables ++ [t]).map Table.size).sum
      rw [List.map_append, List.sum_append, h1]
      simp
    · show s.totalStaleSize + (t.staleDataSize : Int) = _
      rw [List.map_append, List.sum_append, h2]
      simp
  | sortT =>
    show SizeInv (sortTables s)
    unfold sortTables SizeInv
    exact ⟨by rw [h1, permSum _ _ (List.perm_insertionSort tableLe s.tables).symm],
      by rw [h2, permSum _ _ (List.perm_insertionSort tableLe s.tables).symm]⟩
  | delete toDel =>
    show SizeInv (deleteTables s toDel).1
    unfold deleteTables SizeInv
    dsimp only
    obtain ⟨g1, g2, g3, g4⟩ := foldl_subtractSize
      (s.tables.filter (fun t => (toDel.map Table.id).contains t.id)) s
    constructor
    · show (List.foldl subtractSize s _).totalSize = _
      rw [g1, h1]
      have := sumSplit s.tables (fun t => (toDel.map Table.id).contains t.id) Table.size
      omega
    · show (List.foldl subtractSize s _).totalStaleSize = _
      rw [g2, h2]
      have := sumSplit s.tables (fun t => (toDel.map Table.id).contains t.id)
        (fun t => (t.staleDataSize : Int))
      omega
  | replace toDel toAdd =>
    show SizeInv (replaceTables s toDel toAdd).1
    unfold replaceTables SizeInv
    dsimp only
    obtain ⟨g1, g2, g3, g4⟩ := foldl_subtractSize
      (s.tables.filter (fun t => (toDel.map Table.id).contains t.id)) s
    obtain ⟨k1, k2, k3, k4⟩ := foldl_addSize toAdd
      (List.foldl subtractSize s
        (s.tables.filter (fun t => (toDel.map Table.id).contains t.id)))
    constructor
    · show (toAdd.foldl addSize _).totalSize = _
      rw [k1, g1, h1,
        permSum _ _ (List.perm_insertionSort tableLe _), List.map_append,
        List.sum_append]
      have := sumSplit s.tables (fun t => (toDel.map Table.id).contains t.id) Table.size
      omega
    · show (toAdd.foldl addSize _).totalStaleSize = _
      rw [k2, g2, h2,
        permSum _ _ (List.perm_insertionSort tableLe _), List.map_append,
        List.sum_append]
      have := sumSplit s.tables (fun t => (toDel.map Table.id).contains t.id)
        (fun t => (t.staleDataSize : Int))
      omega

theorem sizeInv_applyOps (s : LevelHandler) (ops : List LhOp) (h : SizeInv s) :
    SizeInv (applyOps s ops) := by
  induction ops generalizing s with
  | nil => exact h
  | cons op ops ih => exact ih _ (sizeInv_applyOp s op h)

/-- Sorting by smallest key turns any pairwise-disjoint table multiset
into a list satisfying the range invariant. -/
theorem tinv_sorted (l : List Table) (hd : List.Pairwise disjointT l) :
    List.Sorted tableLe (l.insertionSort tableLe) ∧
      List.Pairwise disjointT (l.insertionSort tableLe) :=
  ⟨List.sorted_insertionSort tableLe l,
    ((List.perm_insertionSort tableLe l).pairwise_iff (fun h => disjointT_symm h)).mpr hd⟩

theorem tinv_initTables (s : LevelHandler) (ts : List Table) (hl : s.level ≠ 0)
    (hd : List.Pairwise disjointT ts) : TInv (initTables s ts) := by
  unfold initTables
  dsimp only
  obtain ⟨g1, g2, g3, g4⟩ := foldl_addSize ts
    { s with tables := ts, totalSize := 0, totalStaleSize := 0 }
  rw [if_neg (by rw [g4]; exact hl)]
  show List.Sorted tableLe ((List.foldl addSize _ ts).tables.insertionSort tableLe) ∧
    List.Pairwise disjointT ((List.foldl addSize _ ts).tables.insertionSort tableLe)
  rw [g3]
  exact tinv_sorted ts hd

theorem tinv_sortTables (s : LevelHandler) (hd : List.Pairwise disjointT s.tables) :
    TInv (sortTables s) :=
  tinv_sorted s.tables hd

theorem tinv_addTable_sort (s : LevelHandler) (t : Table)
    (hd : List.Pairwise disjointT s.tables)
    (ht : ∀ u ∈ s.tables, disjointT u t) : TInv (sortTables (addTable s t)) := by
  apply tinv_sorted
  show List.Pairwise disjointT (s.tables ++ [t])
  rw [List.pairwise_append]
  exact ⟨hd, List.pairwise_singleton _ _, fun a ha b hb => by
    rw [List.mem_singleton] at hb
    subst hb
    exact ht a ha⟩

theorem tinv_deleteTables (s : LevelHandler) (toDel : List Table) (h : TInv s) :
    TInv (deleteTables s toDel).1 := by
  obtain ⟨h1, h2⟩ := h
  unfold deleteTables
  dsimp only
  constructor
  · show List.Sorted tableLe (s.tables.filter _)
    exact List.Pairwise.sublist (List.filter_sublist _) h1
  · show List.Pairwise disjointT (s.tables.filter _)
    exact List.Pairwise.sublist (List.filter_sublist _) h2

theorem tinv_replaceTables (s : LevelHandler) (toDel toAdd : List Table) (h : TInv s)
    (hadd : List.Pairwise disjointT toAdd)
    (hcross : ∀ u ∈ s.tables.filter (fun t => !((toDel.map Table.id).contains t.id)),
      ∀ a ∈ toAdd, disjointT u a) :
    TInv (replaceTables s toDel toAdd).1 := by
  unfold replaceTables
  dsimp only
  apply tinv_sorted
  rw [List.pairwise_append]
  exact ⟨List.Pairwise.sublist (List.filter_sublist _) h.2, hadd, hcross⟩

/-- Claim C5 as literally stated: after an arbitrary operation sequence
the list is sorted by smallest key with pairwise-disjoint ranges and the
size counters match. -/
def C5Stated (s : LevelHandler) (ops : List LhOp) : Prop :=
  List.Sorted tableLe (applyOps s ops).tables ∧
  List.Pairwise disjointT (applyOps s ops).tables ∧
  SizeInv (applyOps s ops)

def tC1 : Table := { id := 1, smallest := ⟨[4], 0⟩, biggest := ⟨[5], 0⟩ }

def tC0 : Table := { id := 2, smallest := ⟨[1], 0⟩, biggest := ⟨[2], 0⟩ }

def lhC5 : LevelHandler := ⟨[], 0, 0, 1⟩

/-- C5 as stated fails on the code: `addTable` appends without sorting,
so `initTables [4..5]` followed by `addTable [1..2]` leaves the list
unsorted (the tables are proper and disjoint, so only sortedness
breaks). -/
theorem claim_C5_counterexample : ¬ C5Stated lhC5 [LhOp.init [tC1], LhOp.add tC0] := by
  intro h
  have hsorted := h.1
  have htab : (applyOps lhC5 [LhOp.init [tC1], LhOp.add tC0]).tables = [tC1, tC0] := rfl
  rw [htab] at hsorted
  have h12 : tableLe tC1 tC0 := List.rel_of_sorted_cons hsorted tC0 (by simp)
  exact absurd h12 (by decide)

/-- C5 (amended): `totalSize`/`totalStaleSize` equal the sums after any
operation sequence; the sorted-disjoint range invariant is established
by `initTables` (L≥1, disjoint input), `sortTables` (disjoint set),
`addTable` followed by `sortTables` (new table disjoint from the rest),
and preserved by `deleteTables` and by `replaceTables` (added tables
disjoint from each other and from the retained ones).  `addTable` alone
may leave the list unsorted. -/
theorem claim_C5_invariant :
    (∀ (s : LevelHandler) (ops : List LhOp), SizeInv s → SizeInv (applyOps s ops)) ∧
    (∀ (s : LevelHandler) (ts : List Table), s.level ≠ 0 →
      List.Pairwise disjointT ts → TInv (initTables s ts)) ∧
    (∀ s : LevelHandler, List.Pairwise disjointT s.tables → TInv (sortTables s)) ∧
    (∀ (s : LevelHandler) (t : Table), List.Pairwise disjointT s.tables →
      (∀ u ∈ s.tables, disjointT u t) → TInv (sortTables (addTable s t))) ∧
    (∀ (s : LevelHandler) (toDel : List Table), TInv s → TInv (deleteTables s toDel).1) ∧
    (∀ (s : LevelHandler) (toDel toAdd : List Table), TInv s →
      List.Pairwise disjointT toAdd →
      (∀ u ∈ s.tables.filter (fun t => !((toDel.map Table.id).contains t.id)),
        ∀ a ∈ toAdd, disjointT u a) →
      TInv (replaceTables s toDel toAdd).1) :=
  ⟨sizeInv_applyOps, tinv_initTables, tinv_sortTables, tinv_addTable_sort,
    tinv_deleteTables, tinv_replaceTables⟩

theorem claim_C5_invariant_witness :
    SizeInv lhC5 ∧ List.Pairwise disjointT [tC1, tC0] ∧ lhC5.level ≠ 0 ∧
      SizeInv (applyOps lhC5 [LhOp.init [tC1], LhOp.add tC0, LhOp.sortT]) ∧
      TInv (initTables lhC5 [tC1, tC0]) := by
  have h0 : SizeInv lhC5 := ⟨rfl, rfl⟩
  have hd : List.Pairwise disjointT [tC1, tC0] := by
    refine List.Pairwise.cons ?_ (List.pairwise_singleton _ _)
    intro b hb
    rw [List.mem_singleton] at hb
    subst hb
    right
    decide
  exact ⟨h0, hd, by decide,
    claim_C5_invariant.1 lhC5 [LhOp.init [tC1], LhOp.add tC0, LhOp.sortT] h0,
    claim_C5_invariant.2.1 lhC5 [tC1, tC0] (by decide) hd⟩

/-! #### Claim C1: point lookup -/

theorem key_le_same_user {a b : Key} (hu : a.userKey = b.userKey) :
    a ≤ b ↔ b.version ≤ a.version := by
  rw [key_le_iff]
  unfold compareKeys
  rw [hu, if_pos (compareBytes_self _)]
  split_ifs with h1 h2
  · simp only [ne_eq]
    constructor
    · intro _; omega
    · intro _
      intro hc
      exact absurd hc (by decide)
  · constructor
    · intro hh; exact absurd rfl hh
    · intro hh; exact (by omega : False).elim
  · simp only [ne_eq]
    constructor
    · intro _; omega
    · intro _
      intro hc
      exact absurd hc (by decide)

theorem key_le_user_parts {a b : Key} (h : a ≤ b) :
    compareBytes a.userKey b.userKey = .lt ∨ a.userKey = b.userKey := by
  rw [key_le_iff] at h
  unfold compareKeys at h
  by_cases hc : compareBytes a.userKey b.userKey = .eq
  · right
    exact (compareBytes_eq_iff _ _).mp hc
  · rw [if_neg hc] at h
    rcases he : compareBytes a.userKey b.userKey with h1 | h1 | h1
    · left; rfl
    · exact absurd he hc
    · rw [he] at h; simp at h

/-- A key sandwiched between two keys of the same user key shares it. -/
theorem user_between {k x m : Key} (h1 : k ≤ x) (h2 : x ≤ m)
    (hu : k.userKey = m.userKey) : x.userKey = k.userKey := by
  rcases key_le_user_parts h1 with hp1 | hp1
  · rcases key_le_user_parts h2 with hp2 | hp2
    · have := compareBytes_lt_trans hp1 hp2
      rw [← hu] at this
      rw [compareBytes_self] at this
      exact absurd this (by simp)
    · rw [hp2, ← hu] at hp1
      rw [compareBytes_self] at hp1
      exact absurd hp1 (by simp)
  · exact hp1.symm

/-- An entry matching the user key of `k` at a version no newer than
`k`'s (the versions a forward seek to `k` can reach). -/
def matchUpTo (k : Key) (e : Key × ValueStruct) : Bool :=
  decide (e.1.userKey = k.userKey ∧ e.1.version ≤ k.version)

def tblMaxUpTo (t : Table) (k : Key) : Nat :=
  ((t.entries.filter (matchUpTo k)).map (fun e => e.1.version)).foldr max 0

/-- The per-level maximum version visible to `get(k)`: over all
candidate tables, the largest version ≤ `k`'s among entries with `k`'s
user key (0 when there is none). -/
def maxVersionUpTo (ts : List Table) (k : Key) : Nat :=
  (ts.map (fun t => tblMaxUpTo t k)).foldr max 0

def matchSame (k : Key) (e : Key × ValueStruct) : Bool :=
  decide (e.1.userKey = k.userKey)

/-- The quantity claim C1 as stated asserts `get` returns: the maximum
version among all candidate entries with `k`'s user key, with no bound
by `k`'s own version. -/
def maxVersionSameKey (ts : List Table) (k : Key) : Nat :=
  (ts.map (fun t =>
    ((t.entries.filter (matchSame k)).map (fun e => e.1.version)).foldr max 0)).foldr max 0

theorem foldrMax_le (l : List Nat) (b : Nat) (h : ∀ x ∈ l, x ≤ b) :
    l.foldr max 0 ≤ b := by
  induction l with
  | nil => simp
  | cons x xs ih =>
    rw [List.foldr_cons]
    have h1 := h x (by simp)
    have h2 := ih (fun y hy => h y (by simp [hy]))
    omega

theorem le_foldrMax (l : List Nat) (x : Nat) (hx : x ∈ l) : x ≤ l.foldr max 0 := by
  induction l with
  | nil => simp at hx
  | cons y ys ih =>
    rw [List.foldr_cons]
    rcases List.mem_cons.mp hx with h | h
    · subst h; omega
    · have := ih h; omega

/-- `find?` on a strictly sorted entry list returns the least entry
satisfying the (upward-closed, here `k ≤ ·`) predicate. -/
theorem find?_seek_least (entries : List (Key × ValueStruct)) (k : Key)
    (hs : List.Pairwise (fun a b : Key => a < b) (entries.map Prod.fst)) :
    (∀ e, entries.find? (fun e => decide (k ≤ e.1)) = some e →
      e ∈ entries ∧ k ≤ e.1 ∧ ∀ m ∈ entries, k ≤ m.1 → e.1 ≤ m.1) ∧
    (entries.find? (fun e => decide (k ≤ e.1)) = none → ∀ m ∈ entries, ¬ k ≤ m.1) := by
  induction entries with
  | nil =>
    constructor
    · intro e he; simp [List.find?] at he
    · intro _ m hm; simp at hm
  | cons x xs ih =>
    rw [List.map_cons, List.pairwise_cons] at hs
    obtain ⟨hhead, htail⟩ := hs
    obtain ⟨ih1, ih2⟩ := ih htail
    constructor
    · intro e he
      by_cases hp : k ≤ x.1
      · rw [List.find?_cons_of_pos _ (by simpa using hp)] at he
        injection he with he
        subst he
        refine ⟨by simp, hp, ?_⟩
        intro m hm _
        rcases List.mem_cons.mp hm with h | h
        · subst h; exact le_refl _
        · exact le_of_lt (hhead m.1 (List.mem_map_of_mem Prod.fst h))
      · rw [List.find?_cons_of_neg _ (by simpa using hp)] at he
        obtain ⟨q1, q2, q3⟩ := ih1 e he
        refine ⟨by simp [q1], q2, ?_⟩
        intro m hm hkm
        rcases List.mem_cons.mp hm with h | h
        · subst h; exact absurd hkm hp
        · exact q3 m h hkm
    · intro hn m hm hkm
      by_cases hp : k ≤ x.1
      · rw [List.find?_cons_of_pos _ (by simpa using hp)] at hn
        exact absurd hn (by simp)
      · rw [List.find?_cons_of_neg _ (by simpa using hp)] at hn
        rcases List.mem_cons.mp hm with h | h
        · subst h; exact absurd hkm hp
        · exact ih2 hn m h hkm

/-- Matching entries are exactly the keys `≥ k` with `k`'s user key. -/
theorem matchUpTo_iff (k : Key) (e : Key × ValueStruct) :
    matchUpTo k e = true ↔ (e.1.userKey = k.userKey ∧ k ≤ e.1) := by
  unfold matchUpTo
  rw [decide_eq_true_eq]
  constructor
  · rintro ⟨h1, h2⟩
    exact ⟨h1, (key_le_same_user h1.symm).mpr h2⟩
  · rintro ⟨h1, h2⟩
    exact ⟨h1, (key_le_same_user h1.symm).mp h2⟩

/-- One candidate-table step of `get` computes a running maximum of the
per-table maxima, and is the identity when the table cannot improve. -/
theorem getStep_version (hash : List Nat → Nat) (k : Key) (acc : ValueStruct) (t : Table)
    (hs : List.Pairwise (fun a b : Key => a < b) (t.entries.map Prod.fst))
    (hb : ∀ e ∈ t.entries, e.1.userKey = k.userKey →
      t.doesNotHave (hash k.userKey) = false) :
    (getStep hash k acc t).version = max acc.version (tblMaxUpTo t k) ∧
    (tblMaxUpTo t k ≤ acc.version → getStep hash k acc t = acc) := by
  obtain ⟨hf1, hf2⟩ := find?_seek_least t.entries k hs
  unfold getStep
  by_cases hbloom : t.doesNotHave (hash k.userKey) = true
  · -- bloom miss: no entry can have k's user key
    have hfil : t.entries.filter (matchUpTo k) = [] := by
      rw [List.filter_eq_nil]
      intro e he hmat
      have hu := ((matchUpTo_iff k e).mp hmat).1
      rw [hb e he hu] at hbloom
      exact absurd hbloom (by simp)
    have hmax0 : tblMaxUpTo t k = 0 := by
      unfold tblMaxUpTo
      rw [hfil]
      rfl
    rw [if_pos hbloom, hmax0]
    exact ⟨by omega, fun _ => rfl⟩
  · rw [if_neg hbloom]
    rcases hseek : tableSeek t k with _ | e
    · -- nothing ≥ k in the table: no matching entry either
      have hfil : t.entries.filter (matchUpTo k) = [] := by
        rw [List.filter_eq_nil]
        intro m hm hmat
        exact hf2 hseek m hm ((matchUpTo_iff k m).mp hmat).2
      have hmax0 : tblMaxUpTo t k = 0 := by
        unfold tblMaxUpTo
        rw [hfil]
        rfl
      rw [hmax0]
      constructor
      · show acc.version = max acc.version 0
        omega
      · intro _
        rfl
    · obtain ⟨he1, he2, he3⟩ := hf1 e hseek
      by_cases hsk : sameKey k e.1 = true
      · -- the least entry ≥ k has k's user key: it is the per-table max
        have hu : e.1.userKey = k.userKey := by
          unfold sameKey at hsk
          rw [beq_iff_eq] at hsk
          exact hsk.symm
        have hmatch : matchUpTo k e = true := (matchUpTo_iff k e).mpr ⟨hu, he2⟩
        have hmem : e.1.version ∈ (t.entries.filter (matchUpTo k)).map
            (fun e => e.1.version) :=
          List.mem_map_of_mem _ (List.mem_filter.mpr ⟨he1, hmatch⟩)
        have hub : ∀ x ∈ (t.entries.filter (matchUpTo k)).map (fun e => e.1.version),
            x ≤ e.1.version := by
          intro x hx
          obtain ⟨m, hm, hxv⟩ := List.mem_map.mp hx
          obtain ⟨hm1, hm2⟩ := List.mem_filter.mp hm
          obtain ⟨hmu, hmk⟩ := (matchUpTo_iff k m).mp hm2
          have hle : e.1 ≤ m.1 := he3 m hm1 hmk
          have humm : m.1.userKey = e.1.userKey := by rw [hmu, hu]
          have := (key_le_same_user humm.symm).mp hle
          omega
        have hmax : tblMaxUpTo t k = e.1.version :=
          le_antisymm (foldrMax_le _ _ hub) (le_foldrMax _ _ hmem)
        constructor
        · show (if sameKey k e.1 = true then
              if acc.version < e.1.version then { e.2 with version := e.1.version }
              else acc
            else acc).version = max acc.version (tblMaxUpTo t k)
          rw [if_pos hsk]
          split_ifs with hv
          · show e.1.version = max acc.version (tblMaxUpTo t k)
            rw [hmax]
            omega
          · show acc.version = max acc.version (tblMaxUpTo t k)
            rw [hmax]
            omega
        · intro hle
          rw [hmax] at hle
          show (if sameKey k e.1 = true then
              if acc.version < e.1.version then { e.2 with version := e.1.version }
              else acc
            else acc) = acc
          rw [if_pos hsk, if_neg (by omega : ¬ acc.version < e.1.version)]
      · -- the least entry ≥ k has another user key: no matching entry
        have hfil : t.entries.filter (matchUpTo k) = [] := by
          rw [List.filter_eq_nil]
          intro m hm hmat
          obtain ⟨hmu, hmk⟩ := (matchUpTo_iff k m).mp hmat
          have hle : e.1 ≤ m.1 := he3 m hm hmk
          have heu : e.1.userKey = k.userKey := user_between he2 hle hmu.symm
          refine hsk ?_
          unfold sameKey
          rw [beq_iff_eq]
          exact heu.symm
        have hmax0 : tblMaxUpTo t k = 0 := by
          unfold tblMaxUpTo
          rw [hfil]
          rfl
        rw [hmax0]
        constructor
        · show (if sameKey k e.1 = true then
              if acc.version < e.1.version then { e.2 with version := e.1.version }
              else acc
            else acc).version = max acc.version 0
          rw [if_neg hsk]
          omega
        · intro _
          show (if sameKey k e.1 = true then
              if acc.version < e.1.version then { e.2 with version := e.1.version }
              else acc
            else acc) = acc
          rw [if_neg hsk]

/-- The candidate fold of `get` computes the running maximum version. -/
theorem lhGet_fold (hash : List Nat → Nat) (k : Key) (tables : List Table) :
    ∀ acc : ValueStruct,
    (∀ t ∈ tables, List.Pairwise (fun a b : Key => a < b) (t.entries.map Prod.fst)) →
    (∀ t ∈ tables, ∀ e ∈ t.entries, e.1.userKey = k.userKey →
      t.doesNotHave (hash k.userKey) = false) →
    (tables.foldl (getStep hash k) acc).version
      = max acc.version (maxVersionUpTo tables k) ∧
    (maxVersionUpTo tables k ≤ acc.version →
      tables.foldl (getStep hash k) acc = acc) := by
  induction tables with
  | nil =>
    intro acc _ _
    exact ⟨by unfold maxVersionUpTo; simp, fun _ => rfl⟩
  | cons t ts ih =>
    intro acc hsort hbloom
    have hcons : maxVersionUpTo (t :: ts) k
        = max (tblMaxUpTo t k) (maxVersionUpTo ts k) := by
      unfold maxVersionUpTo
      rw [List.map_cons, List.foldr_cons]
    obtain ⟨hstep1, hstep2⟩ := getStep_version hash k acc t
      (hsort t (by simp)) (hbloom t (by simp))
    obtain ⟨ih1, ih2⟩ := ih (getStep hash k acc t)
      (fun u hu => hsort u (by simp [hu])) (fun u hu => hbloom u (by simp [hu]))
    rw [List.foldl_cons]
    constructor
    · rw [ih1, hstep1, hcons]
      omega
    · intro hle
      rw [hcons] at hle
      have hts : getStep hash k acc t = acc := hstep2 (by omega)
      rw [hts]
      obtain ⟨ja, jb⟩ := ih acc (fun u hu => hsort u (by simp [hu]))
        (fun u hu => hbloom u (by simp [hu]))
      exact jb (by omega)

def tX1 : Table := { id := 1, entries := [(⟨[7], 5⟩, { value := [120] })] }

def tX2 : Table := { id := 2, entries := [(⟨[7], 7⟩, { value := [121] })] }

def lhX : LevelHandler := ⟨[tX1, tX2], 0, 0, 0⟩

def kX : Key := ⟨[7], 5⟩

/-- C1 as stated fails on the code: with L0 tables holding versions 5
and 7 of the same user key and a lookup key at version 5, the seek in
the version-7 table lands past every entry (newer versions sort before
older ones), so `get` returns version 5 while the maximum version over
all candidate entries with that user key is 7. -/
theorem claim_C1_counterexample :
    ¬ ((lhGet (fun _ => 0) lhX kX).version
        = maxVersionSameKey (getTableForKey lhX kX) kX) := by
  decide

/-- The conclusion of the amended claim C1. -/
def GetSpec (hash : List Nat → Nat) (s : LevelHandler) (k : Key) : Prop :=
  (lhGet hash s k).version = maxVersionUpTo (getTableForKey s k) k ∧
  (maxVersionUpTo (getTableForKey s k) k = 0 → lhGet hash s k = ⟨[], 0⟩) ∧
  (s.level = 0 → getTableForKey s k = s.tables.reverse)

/-- C1 (amended): for every level handler and lookup key `k`, over the
candidate tables (all L0 tables in reverse order, or the unique covering
L≥1 table), `get(k)` returns a value whose version is the maximum
version — **among entries whose user key is `k`'s and whose version is
at most `k`'s version** — and the zero-valued record (version 0) when no
candidate holds such an entry.  Versions above `k`'s are invisible to the
forward seek, which is the MVCC snapshot-read contract. -/
theorem claim_C1_get (hash : List Nat → Nat) (s : LevelHandler) (k : Key)
    (hsort : ∀ t ∈ getTableForKey s k,
      List.Pairwise (fun a b : Key => a < b) (t.entries.map Prod.fst))
    (hbloom : ∀ t ∈ getTableForKey s k, ∀ e ∈ t.entries,
      e.1.userKey = k.userKey → t.doesNotHave (hash k.userKey) = false) :
    GetSpec hash s k := by
  obtain ⟨h1, h2⟩ := lhGet_fold hash k (getTableForKey s k) ⟨[], 0⟩ hsort hbloom
  refine ⟨?_, ?_, ?_⟩
  · show (List.foldl (getStep hash k) ⟨[], 0⟩ _).version = _
    rw [h1]
    show max 0 _ = _
    omega
  · intro hz
    show List.foldl (getStep hash k) ⟨[], 0⟩ _ = _
    exact h2 (by omega)
  · intro h0
    unfold getTableForKey
    rw [if_pos h0]

theorem claim_C1_get_witness :
    (∀ t ∈ getTableForKey lhX kX,
      List.Pairwise (fun a b : Key => a < b) (t.entries.map Prod.fst)) ∧
    (∀ t ∈ getTableForKey lhX kX, ∀ e ∈ t.entries,
      e.1.userKey = kX.userKey →
        t.doesNotHave ((fun _ => 0) kX.userKey) = false) ∧
    GetSpec (fun _ => 0) lhX kX := by
  refine ⟨by decide, by decide, ?_⟩
  exact claim_C1_get (fun _ => 0) lhX kX (by decide) (by decide)

end LevelHandler

/-! ### `table/merge_iterator.go` — the binary merge tree

`NewMergeIterator` builds a binary tree of two-way `MergeIterator`s over
the input iterators (splitting the slice at its midpoint); each leaf is
one input iterator, modelled as a strictly full-key-sorted entry list
traversed ascending (forward) or descending (reverse).  A `node` struct
caches its child's `valid`/`key`; `small` points at the child whose
cached key comes first in traversal order. -/

namespace MergeTree

/-- The static tree `NewMergeIterator` builds: leaves are the input
iterators (their full sorted entry lists), nodes are two-way
`MergeIterator`s. -/
inductive Shape : Type where
  | leaf (entries : List Key)
  | node (l r : Shape)
deriving DecidableEq, Repr

/-- The mutable state of the tree.  A leaf keeps the suffix of its
traversal still to be emitted.  A `MergeIterator` node keeps which child
`small` points at, `curKey`, and each child `node` struct's cached
`valid`/`key` (`setKey` leaves the cached key untouched while the child
is invalid). -/
inductive St : Type where
  | leaf (rem : List Key)
  | node (smallIsLeft : Bool) (curKey : Key)
         (lv : Bool) (lk : Key) (ls : St)
         (rv : Bool) (rk : Key) (rs : St)
deriving DecidableEq, Repr

/-- `Valid()`: a leaf iterator is valid while entries remain; a
`MergeIterator` reports `small.valid` (the cached bit). -/
def stValid : St → Bool
  | .leaf rem => !rem.isEmpty
  | .node s _ lv _ _ rv _ _ => if s then lv else rv

/-- `Key()`: a leaf iterator's current entry; a `MergeIterator` reports
`small.key` (the cached key). -/
def stKey : St → Key
  | .leaf rem => rem.headD ⟨[], 0⟩
  | .node s _ _ lk _ _ rk _ => if s then lk else rk

def curKeyOf : St → Key
  | .leaf _ => ⟨[], 0⟩
  | .node _ ck _ _ _ _ _ _ => ck

/-- Total number of entries the leaves below this state still hold. -/
def stSize : St → Nat
  | .leaf rem => rem.length
  | .node _ _ _ _ ls _ _ rs => stSize ls + stSize rs

/-- Traversal order: `reverse` keys descend instead of ascend. -/
def rLt (rev : Bool) (a b : Key) : Prop := if rev then b < a else a < b

instance rLtDec (rev : Bool) (a b : Key) : Decidable (rLt rev a b) :=
  match rev with
  | true => inferInstanceAs (Decidable (b < a))
  | false => inferInstanceAs (Decidable (a < b))

/-- The traversal list of one input: its entries, reversed in reverse
mode (a table iterator walks backwards when `reverse` is set). -/
def leafTrav (rev : Bool) (entries : List Key) : List Key :=
  if rev then entries.reverse else entries

/-- A leaf `Seek(k)`: position at the first traversal entry `≥ k`
(forward) resp. `≤ k` (reverse). -/
def leafSeekRem (rev : Bool) (entries : List Key) (k : Key) : List Key :=
  if rev then entries.reverse.dropWhile (fun e => decide (k < e))
  else entries.dropWhile (fun e => decide (e < k))

/-- `mi.setCurrent()`: copy `small.key` (the cached one) into `curKey`. -/
def setCur : St → St
  | .node s _ lv lk ls rv rk rs => .node s (if s then lk else rk) lv lk ls rv rk rs
  | st => st

/-- Advance `mi.small` — `small.next()`: run the child's `Next`, then
`setKey` re-caches its `valid`/`key` (key kept stale when invalid). -/
def smallNextN (lNext rNext : St → St) : St → St
  | .node s ck lv lk ls rv rk rs =>
      if s then
        let ls2 := lNext ls
        let lv2 := stValid ls2
        .node s ck lv2 (if lv2 then stKey ls2 else lk) ls2 rv rk rs
      else
        let rs2 := rNext rs
        let rv2 := stValid rs2
        .node s ck lv lk ls rv2 (if rv2 then stKey rs2 else rk) rs2
  | st => st

/-- `mi.fix()`: make `small` point at the traversal-first child; on a
tie advance `right` past the duplicate (and keep `small` at `left`). -/
def fixN (rev : Bool) (rNext : St → St) : St → St
  | .node s ck lv lk ls rv rk rs =>
      if (if s then rv else lv) = false then .node s ck lv lk ls rv rk rs
      else if (if s then lv else rv) = false then .node (!s) ck lv lk ls rv rk rs
      else
        match compareKeys (if s then lk else rk) (if s then rk else lk) with
        | .eq =>
            let rs2 := rNext rs
            let rv2 := stValid rs2
            let rk2 := if rv2 then stKey rs2 else rk
            if s then .node s ck lv lk ls rv2 rk2 rs2
            else .node true ck lv lk ls rv2 rk2 rs2
        | .lt =>
            if rev then .node (!s) ck lv lk ls rv rk rs
            else .node s ck lv lk ls rv rk rs
        | .gt =>
            if rev then .node s ck lv lk ls rv rk rs
            else .node (!s) ck lv lk ls rv rk rs
  | st => st

/-- The loop of `mi.Next()`: while valid and `small.key == curKey`,
`small.next(); fix()`.  Fuel bounds the iterations; `stSize + 1` always
suffices on an aligned state. -/
def nextLoopN (rev : Bool) (lNext rNext : St → St) : Nat → St → St
  | 0, st => st
  | fuel + 1, st =>
      if stValid st = true ∧ stKey st = curKeyOf st then
        nextLoopN rev lNext rNext fuel (fixN rev rNext (smallNextN lNext rNext st))
      else st

/-- `mi.Next()`: the skip loop, then `setCurrent`. -/
def nodeNext (rev : Bool) (lNext rNext : St → St) (st : St) : St :=
  setCur (nextLoopN rev lNext rNext (stSize st + 1) st)

/-- Re-cache both child `node` structs after an operation on both
children (`setKey` semantics), then `fix()` and `setCurrent()`. -/
def nodeReposition (rev : Bool) (rNext : St → St) (ls2 rs2 : St) : St → St
  | .node s ck _ lk _ _ rk _ =>
      let lv2 := stValid ls2
      let rv2 := stValid rs2
      setCur (fixN rev rNext
        (.node s ck lv2 (if lv2 then stKey ls2 else lk) ls2
                rv2 (if rv2 then stKey rs2 else rk) rs2))
  | st => st

/-- `mi.Rewind()`: rewind both children, `fix`, `setCurrent`. -/
def nodeRewind (rev : Bool) (lRewind rRewind rNext : St → St) (st : St) : St :=
  match st with
  | .node s ck lv lk ls rv rk rs =>
      nodeReposition rev rNext (lRewind ls) (rRewind rs)
        (.node s ck lv lk ls rv rk rs)
  | st => st

/-- `mi.Seek(k)`: seek both children, `fix`, `setCurrent`. -/
def nodeSeek (rev : Bool) (lSeek rSeek : St → St) (rNext : St → St) (st : St) : St :=
  match st with
  | .node s ck lv lk ls rv rk rs =>
      nodeReposition rev rNext (lSeek ls) (rSeek rs)
        (.node s ck lv lk ls rv rk rs)
  | st => st

/-- The three mutating operations of `y.Iterator` that the merge tree
uses on a child. -/
structure Ops where
  nextF : St → St
  rewindF : St → St
  seekF : Key → St → St

/-- The operations of the iterator a `Shape` denotes, mirroring `node`'s
dispatch (a leaf child is driven directly, a `MergeIterator` child
through `Next`/`Rewind`/`Seek`). -/
def mkOps (rev : Bool) : Shape → Ops
  | .leaf entries =>
      { nextF := fun st =>
          match st with
          | .leaf rem => .leaf rem.tail
          | st => st
        rewindF := fun st =>
          match st with
          | .leaf _ => .leaf (leafTrav rev entries)
          | st => st
        seekF := fun k st =>
          match st with
          | .leaf _ => .leaf (leafSeekRem rev entries k)
          | st => st }
  | .node shl shr =>
      let ol := mkOps rev shl
      let oR := mkOps rev shr
      { nextF := nodeNext rev ol.nextF oR.nextF
        rewindF := nodeRewind rev ol.rewindF oR.rewindF oR.nextF
        seekF := fun k => nodeSeek rev (ol.seekF k) (oR.seekF k) oR.nextF }

/-- The state `NewMergeIterator` leaves behind: caches unset (`valid`
false, keys zero), `small := &mi.left`, `curKey` empty; leaves start
unpositioned. -/
def initSt : Shape → St
  | .leaf _ => .leaf []
  | .node l r => .node true ⟨[], 0⟩ false ⟨[], 0⟩ (initSt l) false ⟨[], 0⟩ (initSt r)

/-- Does the state structurally fit the shape? -/
def fits : Shape → St → Bool
  | .leaf _, .leaf _ => true
  | .node shl shr, .node _ _ _ _ ls _ _ rs => fits shl ls && fits shr rs
  | _, _ => false

/-- `NewMergeIterator`: nil for no input, the input itself for one,
otherwise a node over the two halves split at `len/2`. -/
def buildShape : List (List Key) → Option Shape
  | [] => none
  | [e] => some (.leaf e)
  | e1 :: e2 :: es =>
      let all := e1 :: e2 :: es
      let mid := all.length / 2
      match buildShape (all.take mid), buildShape (all.drop mid) with
      | some l, some r => some (.node l r)
      | _, _ => none
termination_by l => l.length
decreasing_by
  · simp [List.length_take]
    omega
  · simp
    omega

/-- All entries of all inputs below the shape, in input order. -/
def shapeKeys : Shape → List Key
  | .leaf e => e
  | .node l r => shapeKeys l ++ shapeKeys r

/-- Each input is strictly ascending in full-key order. -/
def WFShape : Shape → Prop
  | .leaf entries => List.Pairwise (fun a b : Key => a < b) entries
  | .node l r => WFShape l ∧ WFShape r

/-- The stream the iterator emits from a state: current key, then keep
calling `Next` — cut off by fuel. -/
def collect (nextF : St → St) : Nat → St → List Key
  | 0, _ => []
  | fuel + 1, st =>
      if stValid st = true then stKey st :: collect nextF fuel (nextF st) else []

/-- Merge two traversal-sorted streams, emitting a full key shared by
both exactly once — the stream a fixed two-way `MergeIterator` emits. -/
def mergeDedup (rev : Bool) : List Key → List Key → List Key
  | [], b => b
  | x :: a, [] => x :: a
  | x :: a, y :: b =>
      if x = y then x :: mergeDedup rev a b
      else if rLt rev x y then x :: mergeDedup rev a (y :: b)
      else y :: mergeDedup rev (x :: a) b
termination_by a b => a.length + b.length

/-- What the iterator in this state has left to emit: the leaf suffixes,
dedup-merged at every node. -/
def emit (rev : Bool) : Shape → St → List Key
  | .leaf _, .leaf rem => rem
  | .node shl shr, .node _ _ _ _ ls _ _ rs =>
      mergeDedup rev (emit rev shl ls) (emit rev shr rs)
  | _, _ => []

/-- The full stream: every input from the start, dedup-merged. -/
def fullEmit (rev : Bool) : Shape → List Key
  | .leaf entries => leafTrav rev entries
  | .node l r => mergeDedup rev (fullEmit rev l) (fullEmit rev r)

/-- Keys a `Seek(k)` keeps: at or after `k` in traversal order. -/
def keepB (rev : Bool) (k x : Key) : Bool := ! decide (rLt rev x k)

/-- The alignment invariant the operations re-establish: children
aligned; cached `valid`/`key` bits truthful; an invalid `small` forces
an invalid `bigger` (`fix` swaps otherwise); with both children valid,
`small`'s key strictly precedes `bigger`'s (ties were consumed by
`fix`); and `curKey` equals `small`'s cached key (`setCurrent` ran). -/
def Align (rev : Bool) : Shape → St → Prop
  | .leaf _, .leaf rem => List.Pairwise (rLt rev) rem
  | .node shl shr, .node s ck lv lk ls rv rk rs =>
      Align rev shl ls ∧ Align rev shr rs ∧
      lv = stValid ls ∧ rv = stValid rs ∧
      (lv = true → lk = stKey ls) ∧ (rv = true → rk = stKey rs) ∧
      ((if s then lv else rv) = false → lv = false ∧ rv = false) ∧
      (lv = true → rv = true →
        rLt rev (if s then lk else rk) (if s then rk else lk)) ∧
      ck = (if s then lk else rk)
  | _, _ => False

theorem rLt_irrefl (rev : Bool) (a : Key) : ¬ rLt rev a a := by
  cases rev
  · exact lt_irrefl a
  · exact lt_irrefl a

theorem rLt_trans {rev : Bool} {a b c : Key} (h1 : rLt rev a b) (h2 : rLt rev b c) :
    rLt rev a c := by
  cases rev
  · exact lt_trans h1 h2
  · exact lt_trans h2 h1

theorem rLt_asymm {rev : Bool} {a b : Key} (h : rLt rev a b) : ¬ rLt rev b a := by
  intro h2
  exact rLt_irrefl rev a (rLt_trans h h2)

theorem rLt_ne {rev : Bool} {a b : Key} (h : rLt rev a b) : a ≠ b := by
  intro he
  subst he
  exact rLt_irrefl rev a h

theorem rLt_total {rev : Bool} {a b : Key} (h : a ≠ b) : rLt rev a b ∨ rLt rev b a := by
  cases rev
  · exact lt_or_gt_of_ne h
  · rcases lt_or_gt_of_ne h with h1 | h1
    · exact Or.inr h1
    · exact Or.inl h1

theorem mergeDedup_nil_right (rev : Bool) (a : List Key) : mergeDedup rev a [] = a := by
  cases a <;> simp [mergeDedup]

theorem mem_mergeDedup (rev : Bool) (x : Key) :
    ∀ a b : List Key, x ∈ mergeDedup rev a b ↔ x ∈ a ∨ x ∈ b := by
  intro a b
  induction a, b using mergeDedup.induct rev with
  | case1 b => simp [mergeDedup]
  | case2 y a => simp [mergeDedup]
  | case3 a y b ih =>
    simp only [mergeDedup, eq_self_iff_true, if_true]
    simp [ih]
    constructor
    · rintro (h | h | h) <;> simp [h]
    · rintro ((h | h) | (h | h)) <;> simp [h]
  | case4 y a z b hne hlt ih =>
    simp only [mergeDedup, if_neg hne, if_pos hlt]
    simp [ih]
    constructor
    · rintro (h | h | h) <;> simp [h]
    · rintro ((h | h) | (h | h)) <;> simp [h]
  | case5 y a z b hne hnlt ih =>
    simp only [mergeDedup, if_neg hne, if_neg hnlt]
    simp [ih]
    constructor
    · rintro (h | h | h) <;> simp [h]
    · rintro ((h | h) | (h | h)) <;> simp [h]

theorem mergeDedup_eq_nil_iff (rev : Bool) (a b : List Key) :
    mergeDedup rev a b = [] ↔ a = [] ∧ b = [] := by
  cases a <;> cases b <;> simp [mergeDedup]
  split_ifs <;> simp

theorem length_mergeDedup_le (rev : Bool) :
    ∀ a b : List Key, (mergeDedup rev a b).length ≤ a.length + b.length := by
  intro a b
  induction a, b using mergeDedup.induct rev with
  | case1 b => simp [mergeDedup]
  | case2 y a => simp [mergeDedup]
  | case3 a y b ih =>
    simp only [mergeDedup, eq_self_iff_true, if_true]
    simp only [List.length_cons]
    omega
  | case4 y a z b hne hlt ih =>
    simp only [mergeDedup, if_neg hne, if_pos hlt]
    simp only [List.length_cons] at *
    omega
  | case5 y a z b hne hnlt ih =>
    simp only [mergeDedup, if_neg hne, if_neg hnlt]
    simp only [List.length_cons] at *
    omega

theorem mergeDedup_sorted (rev : Bool) :
    ∀ a b : List Key, List.Pairwise (rLt rev) a → List.Pairwise (rLt rev) b →
      List.Pairwise (rLt rev) (mergeDedup rev a b) := by
  intro a b
  induction a, b using mergeDedup.induct rev with
  | case1 b => intro _ hb; simpa [mergeDedup] using hb
  | case2 y a => intro ha _; simpa [mergeDedup] using ha
  | case3 a y b ih =>
    intro ha hb
    rw [List.pairwise_cons] at ha hb
    simp only [mergeDedup, eq_self_iff_true, if_true]
    rw [List.pairwise_cons]
    refine ⟨?_, ih ha.2 hb.2⟩
    intro w hw
    rcases (mem_mergeDedup rev w a b).mp hw with h | h
    · exact ha.1 w h
    · exact hb.1 w h
  | case4 y a z b hne hlt ih =>
    intro ha hb
    rw [List.pairwise_cons] at ha
    simp only [mergeDedup, if_neg hne, if_pos hlt]
    rw [List.pairwise_cons]
    refine ⟨?_, ih ha.2 hb⟩
    intro w hw
    rcases (mem_mergeDedup rev w a (z :: b)).mp hw with h | h
    · exact ha.1 w h
    · rcases List.mem_cons.mp h with h | h
      · subst h; exact hlt
      · rw [List.pairwise_cons] at hb
        exact rLt_trans hlt (hb.1 w h)
  | case5 y a z b hne hnlt ih =>
    intro ha hb
    rw [List.pairwise_cons] at hb
    have hzy : rLt rev z y := by
      rcases rLt_total hne with h | h
      · exact absurd h hnlt
      · exact h
    simp only [mergeDedup, if_neg hne, if_neg hnlt]
    rw [List.pairwise_cons]
    refine ⟨?_, ih ha hb.2⟩
    intro w hw
    rcases (mem_mergeDedup rev w (y :: a) b).mp hw with h | h
    · rcases List.mem_cons.mp h with h | h
      · subst h; exact hzy
      · rw [List.pairwise_cons] at ha
        exact rLt_trans hzy (ha.1 w h)
    · exact hb.1 w h

theorem mergeDedup_cons_left (rev : Bool) (x : Key) (A B : List Key)
    (h : ∀ z ∈ B, rLt rev x z) :
    mergeDedup rev (x :: A) B = x :: mergeDedup rev A B := by
  cases B with
  | nil => rw [mergeDedup_nil_right, mergeDedup_nil_right]
  | cons z B =>
    have hz := h z (by simp)
    simp only [mergeDedup]
    rw [if_neg (rLt_ne hz), if_pos hz]

theorem mergeDedup_cons_right (rev : Bool) (y : Key) (A B : List Key)
    (h : ∀ z ∈ A, rLt rev y z) :
    mergeDedup rev A (y :: B) = y :: mergeDedup rev A B := by
  cases A with
  | nil => simp [mergeDedup]
  | cons x A =>
    have hx := h x (by simp)
    simp only [mergeDedup]
    rw [if_neg (fun he => rLt_ne hx he.symm), if_neg (rLt_asymm hx)]

/-- Truthful child caches (what re-caching after a child operation
gives, before `fix` has re-established the rest). -/
def CacheOK (rev : Bool) (shl shr : Shape) : St → Prop
  | .node _ _ lv lk ls rv rk rs =>
      Align rev shl ls ∧ Align rev shr rs ∧
      lv = stValid ls ∧ rv = stValid rs ∧
      (lv = true → lk = stKey ls) ∧ (rv = true → rk = stKey rs)
  | _ => False

/-- The node invariant minus the `curKey` condition — what holds right
after `fix`, before `setCurrent`. -/
def WAlign (rev : Bool) (shl shr : Shape) : St → Prop
  | .node s _ lv lk ls rv rk rs =>
      Align rev shl ls ∧ Align rev shr rs ∧
      lv = stValid ls ∧ rv = stValid rs ∧
      (lv = true → lk = stKey ls) ∧ (rv = true → rk = stKey rs) ∧
      ((if s then lv else rv) = false → lv = false ∧ rv = false) ∧
      (lv = true → rv = true → rLt rev (if s then lk else rk) (if s then rk else lk))
  | _ => False

theorem align_node_iff (rev : Bool) (shl shr : Shape) (st : St) :
    Align rev (.node shl shr) st ↔ WAlign rev shl shr st ∧ curKeyOf st = stKey st := by
  cases st with
  | leaf rem => simp [Align, WAlign]
  | node s ck lv lk ls rv rk rs =>
    show (_ ∧ _ ∧ _ ∧ _ ∧ _ ∧ _ ∧ _ ∧ _ ∧ _) ↔ ((_ ∧ _ ∧ _ ∧ _ ∧ _ ∧ _ ∧ _ ∧ _) ∧ _)
    constructor
    · rintro ⟨h1, h2, h3, h4, h5, h6, h7, h8, h9⟩
      exact ⟨⟨h1, h2, h3, h4, h5, h6, h7, h8⟩, h9⟩
    · rintro ⟨⟨h1, h2, h3, h4, h5, h6, h7, h8⟩, h9⟩
      exact ⟨h1, h2, h3, h4, h5, h6, h7, h8, h9⟩

theorem walign_cacheOK {rev : Bool} {shl shr : Shape} {st : St}
    (h : WAlign rev shl shr st) : CacheOK rev shl shr st := by
  cases st with
  | leaf rem => exact absurd h (by simp [WAlign])
  | node s ck lv lk ls rv rk rs =>
    obtain ⟨h1, h2, h3, h4, h5, h6, _, _⟩ := h
    exact ⟨h1, h2, h3, h4, h5, h6⟩

/-- What an aligned iterator's cheap observations say about its stream:
the stream is traversal-sorted, validity signals a nonempty stream, and
`Key()` is its head. -/
def EmitFacts (rev : Bool) (sh : Shape) (st : St) : Prop :=
  List.Pairwise (rLt rev) (emit rev sh st) ∧
  (stValid st = true ↔ emit rev sh st ≠ []) ∧
  (stValid st = true → emit rev sh st = stKey st :: (emit rev sh st).tail)

theorem walign_emit_aux {rev : Bool} {shl shr : Shape} {st : St}
    (hw : WAlign rev shl shr st)
    (hfl : ∀ ls2, Align rev shl ls2 → EmitFacts rev shl ls2)
    (hfr : ∀ rs2, Align rev shr rs2 → EmitFacts rev shr rs2) :
    EmitFacts rev (.node shl shr) st := by
  cases st with
  | leaf rem => exact absurd hw (by simp [WAlign])
  | node s ck lv lk ls rv rk rs =>
    obtain ⟨h1, h2, h3, h4, h5, h6, h7, h8⟩ := hw
    obtain ⟨el1, el2, el3⟩ := hfl ls h1
    obtain ⟨er1, er2, er3⟩ := hfr rs h2
    have hemit : emit rev (.node shl shr) (.node s ck lv lk ls rv rk rs)
        = mergeDedup rev (emit rev shl ls) (emit rev shr rs) := by
      simp [emit]
    have hvalid : stValid (St.node s ck lv lk ls rv rk rs) = (if s then lv else rv) := rfl
    have hkey : stKey (St.node s ck lv lk ls rv rk rs) = (if s then lk else rk) := rfl
    refine ⟨?_, ?_, ?_⟩
    · rw [hemit]
      exact mergeDedup_sorted rev _ _ el1 er1
    · rw [hemit, hvalid]
      constructor
      · intro hv
        rw [Ne, mergeDedup_eq_nil_iff]
        by_cases hs : s = true
        · rw [hs, if_pos rfl] at hv
          rw [← h3] at el2
          have := el2.mp hv
          tauto
        · rw [Bool.not_eq_true] at hs
          rw [hs, if_neg (by simp)] at hv
          rw [← h4] at er2
          have := er2.mp hv
          tauto
      · intro hne
        by_contra hv
        rw [Bool.not_eq_true] at hv
        have hboth := h7 hv
        rw [← h3] at el2
        rw [← h4] at er2
        have hl0 : emit rev shl ls = [] := by
          by_contra hx
          have hlv := el2.mpr hx
          rw [hboth.1] at hlv
          exact absurd hlv (by simp)
        have hr0 : emit rev shr rs = [] := by
          by_contra hx
          have hrv := er2.mpr hx
          rw [hboth.2] at hrv
          exact absurd hrv (by simp)
        rw [hl0, hr0] at hne
        simp [mergeDedup] at hne
    · intro hv
      rw [hvalid] at hv
      rw [hemit, hkey]
      by_cases hs : s = true
      · rw [hs, if_pos rfl] at hv ⊢
        rw [← h3] at el2 el3
        rw [← h4] at er2 er3
        have hlk := h5 hv
        have hl3 := el3 hv
        have hbound : ∀ z ∈ emit rev shr rs, rLt rev lk z := by
          intro z hz
          by_cases hrv : rv = true
          · have hrk := h6 hrv
            have hr3 := er3 hrv
            have hstrict := h8 hv hrv
            rw [hs, if_pos rfl, if_pos rfl] at hstrict
            rw [hr3] at hz
            rcases List.mem_cons.mp hz with hz | hz
            · rw [hz, ← hrk]
              exact hstrict
            · rw [hr3] at er1
              rw [List.pairwise_cons] at er1
              have hzz := er1.1 z hz
              rw [← hrk] at hzz
              exact rLt_trans hstrict hzz
          · rw [Bool.not_eq_true] at hrv
            have : emit rev shr rs = [] := by
              by_contra hx
              have hxx := er2.mpr hx
              rw [hrv] at hxx
              exact absurd hxx (by simp)
            rw [this] at hz
            exact absurd hz (by simp)
        have hcons : emit rev shl ls = lk :: (emit rev shl ls).tail := by
          rw [← hlk] at hl3
          exact hl3
        rw [hcons, mergeDedup_cons_left rev lk _ _ hbound]
        simp
      · rw [Bool.not_eq_true] at hs
        rw [hs] at hv ⊢
        simp only [Bool.false_eq_true, if_false] at hv ⊢
        rw [← h3] at el2 el3
        rw [← h4] at er2 er3
        have hrk := h6 hv
        have hr3 := er3 hv
        have hbound : ∀ z ∈ emit rev shl ls, rLt rev rk z := by
          intro z hz
          by_cases hlv : lv = true
          · have hlk := h5 hlv
            have hl3 := el3 hlv
            have hstrict := h8 hlv hv
            rw [hs] at hstrict
            simp only [Bool.false_eq_true, if_false] at hstrict
            rw [hl3] at hz
            rcases List.mem_cons.mp hz with hz | hz
            · rw [hz, ← hlk]
              exact hstrict
            · rw [hl3] at el1
              rw [List.pairwise_cons] at el1
              have hzz := el1.1 z hz
              rw [← hlk] at hzz
              exact rLt_trans hstrict hzz
          · rw [Bool.not_eq_true] at hlv
            have : emit rev shl ls = [] := by
              by_contra hx
              have hxx := el2.mpr hx
              rw [hlv] at hxx
              exact absurd hxx (by simp)
            rw [this] at hz
            exact absurd hz (by simp)
        have hcons : emit rev shr rs = rk :: (emit rev shr rs).tail := by
          rw [← hrk] at hr3
          exact hr3
        rw [hcons, mergeDedup_cons_right rev rk _ _ hbound]
        simp

theorem align_emit (rev : Bool) :
    ∀ sh st, Align rev sh st → EmitFacts rev sh st := by
  intro sh
  induction sh with
  | leaf entries =>
    intro st hst
    cases st with
    | node s ck lv lk ls rv rk rs => exact absurd hst (by simp [Align])
    | leaf rem =>
      refine ⟨hst, ?_, ?_⟩
      · cases rem <;> simp [stValid, emit]
      · intro hv
        cases rem with
        | nil => simp [stValid] at hv
        | cons h t => simp [emit, stKey]
  | node shl shr ihl ihr =>
    intro st hst
    have := (align_node_iff rev shl shr st).mp hst
    exact walign_emit_aux this.1 ihl ihr

theorem walign_emit {rev : Bool} {shl shr : Shape} {st : St}
    (hw : WAlign rev shl shr st) : EmitFacts rev (.node shl shr) st :=
  walign_emit_aux hw (align_emit rev shl) (align_emit rev shr)

theorem emit_length_le (rev : Bool) :
    ∀ sh st, (emit rev sh st).length ≤ stSize st := by
  intro sh
  induction sh with
  | leaf entries =>
    intro st
    cases st with
    | leaf rem => simp [emit, stSize]
    | node s ck lv lk ls rv rk rs => simp [emit]
  | node shl shr ihl ihr =>
    intro st
    cases st with
    | leaf rem => simp [emit]
    | node s ck lv lk ls rv rk rs =>
      have h1 := length_mergeDedup_le rev (emit rev shl ls) (emit rev shr rs)
      have h2 := ihl ls
      have h3 := ihr rs
      simp only [emit, stSize]
      omega

theorem align_fits (rev : Bool) :
    ∀ sh st, Align rev sh st → fits sh st = true := by
  intro sh
  induction sh with
  | leaf entries =>
    intro st hst
    cases st with
    | leaf rem => rfl
    | node s ck lv lk ls rv rk rs => exact absurd hst (by simp [Align])
  | node shl shr ihl ihr =>
    intro st hst
    cases st with
    | leaf rem => exact absurd hst (by simp [Align])
    | node s ck lv lk ls rv rk rs =>
      obtain ⟨h1, h2, _⟩ := hst
      simp [fits, ihl ls h1, ihr rs h2]

theorem fits_initSt : ∀ sh, fits sh (initSt sh) = true := by
  intro sh
  induction sh with
  | leaf entries => rfl
  | node shl shr ihl ihr => simp [initSt, fits, ihl, ihr]

theorem setCur_align {rev : Bool} {shl shr : Shape} {st : St}
    (hw : WAlign rev shl shr st) :
    Align rev (.node shl shr) (setCur st) ∧
    emit rev (.node shl shr) (setCur st) = emit rev (.node shl shr) st ∧
    stValid (setCur st) = stValid st ∧
    stKey (setCur st) = stKey st ∧
    stSize (setCur st) = stSize st := by
  cases st with
  | leaf rem => exact absurd hw (by simp [WAlign])
  | node s ck lv lk ls rv rk rs =>
    obtain ⟨h1, h2, h3, h4, h5, h6, h7, h8⟩ := hw
    refine ⟨⟨h1, h2, h3, h4, h5, h6, h7, h8, rfl⟩, rfl, rfl, rfl, rfl⟩

theorem setCur_of_align {rev : Bool} {shl shr : Shape} {st : St}
    (ha : Align rev (.node shl shr) st) : setCur st = st := by
  cases st with
  | leaf rem => exact absurd ha (by simp [Align])
  | node s ck lv lk ls rv rk rs =>
    obtain ⟨_, _, _, _, _, _, _, _, h9⟩ := ha
    simp [setCur, ← h9]

/-- The behaviour `Next` of a well-formed child iterator has: it stays
aligned, drops exactly the head of its stream, and consumes at least
one underlying entry. -/
def NextSpec (rev : Bool) (sh : Shape) (f : St → St) : Prop :=
  ∀ st, Align rev sh st → stValid st = true →
    Align rev sh (f st) ∧ emit rev sh (f st) = (emit rev sh st).tail ∧
    stSize (f st) < stSize st

theorem fixSpec {rev : Bool} {shl shr : Shape} {rNext : St → St}
    (hNr : NextSpec rev shr rNext) :
    ∀ st, CacheOK rev shl shr st →
      WAlign rev shl shr (fixN rev rNext st) ∧
      emit rev (.node shl shr) (fixN rev rNext st) = emit rev (.node shl shr) st ∧
      curKeyOf (fixN rev rNext st) = curKeyOf st ∧
      stSize (fixN rev rNext st) ≤ stSize st := by
  intro st hc
  cases st with
  | leaf rem => exact absurd hc (by simp [CacheOK])
  | node s ck lv lk ls rv rk rs =>
    obtain ⟨h1, h2, h3, h4, h5, h6⟩ := hc
    simp only [fixN]
    by_cases hbig : (if s then rv else lv) = false
    · -- bigger invalid: nothing to do
      rw [if_pos hbig]
      refine ⟨⟨h1, h2, h3, h4, h5, h6, ?_, ?_⟩, rfl, rfl, le_refl _⟩
      · intro hsmf
        cases s
        · simp only [Bool.false_eq_true, if_false] at hsmf hbig
          exact ⟨hbig, hsmf⟩
        · simp only [eq_self_iff_true, if_true] at hsmf hbig
          exact ⟨hsmf, hbig⟩
      · intro hlv hrv
        cases s
        · simp only [Bool.false_eq_true, if_false] at hbig
          rw [hlv] at hbig
          exact absurd hbig (by simp)
        · simp only [eq_self_iff_true, if_true] at hbig
          rw [hrv] at hbig
          exact absurd hbig (by simp)
    · rw [if_neg hbig]
      have hbigT : (if s then rv else lv) = true := by
        rcases hv : (if s then rv else lv) with _ | _
        · exact absurd hv hbig
        · rfl
      by_cases hsm : (if s then lv else rv) = false
      · -- small invalid, bigger valid: swap
        rw [if_pos hsm]
        refine ⟨⟨h1, h2, h3, h4, h5, h6, ?_, ?_⟩, rfl, rfl, le_refl _⟩
        · intro hsmf
          cases s
          · simp only [Bool.not_false, eq_self_iff_true, if_true] at hsmf
            simp only [Bool.false_eq_true, if_false] at hbigT
            rw [hsmf] at hbigT
            exact absurd hbigT (by simp)
          · simp only [Bool.not_true, Bool.false_eq_true, if_false] at hsmf
            simp only [eq_self_iff_true, if_true] at hbigT
            rw [hsmf] at hbigT
            exact absurd hbigT (by simp)
        · intro hlv hrv
          cases s
          · simp only [Bool.false_eq_true, if_false] at hsm
            rw [hrv] at hsm
            exact absurd hsm (by simp)
          · simp only [eq_self_iff_true, if_true] at hsm
            rw [hlv] at hsm
            exact absurd hsm (by simp)
      · -- both children valid
        rw [if_neg hsm]
        have hsmT : (if s then lv else rv) = true := by
          rcases hv : (if s then lv else rv) with _ | _
          · exact absurd hv hsm
          · rfl
        have hlv : lv = true := by
          cases s
          · simpa using hbigT
          · simpa using hsmT
        have hrv : rv = true := by
          cases s
          · simpa using hsmT
          · simpa using hbigT
        have hvl : stValid ls = true := by rw [← h3]; exact hlv
        have hvr : stValid rs = true := by rw [← h4]; exact hrv
        have hlk := h5 hlv
        have hrk := h6 hrv
        obtain ⟨el1, el2, el3⟩ := align_emit rev shl ls h1
        obtain ⟨er1, er2, er3⟩ := align_emit rev shr rs h2
        have hel := el3 hvl
        have her := er3 hvr
        rcases hcmp : compareKeys (if s then lk else rk) (if s then rk else lk)
          with h0 | h0 | h0
        · -- cmp < 0
          have hlt : (if s then lk else rk) < (if s then rk else lk) :=
            (compareKeys_lt_iff _ _).mp hcmp
          simp only [hcmp]
          cases rev
          · -- forward: small already smallest, keep
            simp only [Bool.false_eq_true, if_false]
            refine ⟨⟨h1, h2, h3, h4, h5, h6, ?_, ?_⟩, by trivial, by trivial, le_refl _⟩
            · intro hsmf
              rw [hsmT] at hsmf
              exact absurd hsmf (by simp)
            · intro _ _
              exact hlt
          · -- reverse: swap to the bigger key
            simp only [eq_self_iff_true, if_true]
            refine ⟨⟨h1, h2, h3, h4, h5, h6, ?_, ?_⟩, by trivial, by trivial, le_refl _⟩
            · intro hsmf
              cases s
              · simp only [Bool.not_false, eq_self_iff_true, if_true] at hsmf
                rw [hlv] at hsmf
                exact absurd hsmf (by simp)
              · simp only [Bool.not_true, Bool.false_eq_true, if_false] at hsmf
                rw [hrv] at hsmf
                exact absurd hsmf (by simp)
            · intro _ _
              cases s
              · simp only [Bool.not_false, eq_self_iff_true, if_true]
                simp only [Bool.false_eq_true, if_false] at hlt
                exact hlt
              · simp only [Bool.not_true, Bool.false_eq_true, if_false]
                simp only [eq_self_iff_true, if_true] at hlt
                exact hlt
        · -- cmp == 0: advance right past the duplicate, small settles on left
          have hskbk : (if s then lk else rk) = (if s then rk else lk) :=
            (compareKeys_eq_iff _ _).mp hcmp
          have hkeq : lk = rk := by
            cases s
            · exact (by simpa using hskbk : rk = lk).symm
            · simpa using hskbk
          obtain ⟨hra, hre, hrsz⟩ := hNr rs h2 hvr
          simp only [hcmp]
          have hs2 : (if s then
                St.node s ck lv lk ls (stValid (rNext rs))
                  (if stValid (rNext rs) = true then stKey (rNext rs) else rk)
                  (rNext rs)
              else
                St.node true ck lv lk ls (stValid (rNext rs))
                  (if stValid (rNext rs) = true then stKey (rNext rs) else rk)
                  (rNext rs))
              = St.node true ck lv lk ls (stValid (rNext rs))
                  (if stValid (rNext rs) = true then stKey (rNext rs) else rk)
                  (rNext rs) := by
            cases s
            · simp
            · simp
          rw [hs2]
          obtain ⟨fr1, fr2, fr3⟩ := align_emit rev shr (rNext rs) hra
          have hrtail : ∀ z ∈ (emit rev shr rs).tail, rLt rev rk z := by
            intro z hz
            rw [her] at er1
            rw [List.pairwise_cons] at er1
            rw [hrk]
            exact er1.1 z hz
          refine ⟨⟨h1, hra, h3, rfl, h5, ?_, ?_, ?_⟩, ?_, rfl, ?_⟩
          · intro hv2
            rw [if_pos hv2]
          · intro hf
            simp only [eq_self_iff_true, if_true] at hf
            rw [hlv] at hf
            exact absurd hf (by simp)
          · intro _ hv2
            simp only [eq_self_iff_true, if_true, if_pos hv2]
            have hfr := fr3 hv2
            have hmem : stKey (rNext rs) ∈ (emit rev shr rs).tail := by
              rw [← hre, hfr]
              simp
            have := hrtail _ hmem
            rw [← hkeq] at this
            exact this
          · -- emission preserved
            show mergeDedup rev (emit rev shl ls) (emit rev shr (rNext rs))
                = mergeDedup rev (emit rev shl ls) (emit rev shr rs)
            rw [hre, hel, ← hlk, hkeq]
            conv_rhs => rw [her]
            rw [← hrk]
            rw [mergeDedup_cons_left rev rk _ _ hrtail]
            simp only [mergeDedup, eq_self_iff_true, if_true]
          · show stSize ls + stSize (rNext rs) ≤ stSize ls + stSize rs
            omega
        · -- cmp > 0
          have hgt : (if s then rk else lk) < (if s then lk else rk) :=
            (compareKeys_gt_iff _ _).mp hcmp
          simp only [hcmp]
          cases rev
          · -- forward: swap to the smaller key
            simp only [Bool.false_eq_true, if_false]
            refine ⟨⟨h1, h2, h3, h4, h5, h6, ?_, ?_⟩, by trivial, by trivial, le_refl _⟩
            · intro hsmf
              cases s
              · simp only [Bool.not_false, eq_self_iff_true, if_true] at hsmf
                rw [hlv] at hsmf
                exact absurd hsmf (by simp)
              · simp only [Bool.not_true, Bool.false_eq_true, if_false] at hsmf
                rw [hrv] at hsmf
                exact absurd hsmf (by simp)
            · intro _ _
              cases s
              · simp only [Bool.not_false, eq_self_iff_true, if_true]
                simp only [Bool.false_eq_true, if_false] at hgt
                exact hgt
              · simp only [Bool.not_true, Bool.false_eq_true, if_false]
                simp only [eq_self_iff_true, if_true] at hgt
                exact hgt
          · -- reverse: small already holds the bigger key, keep
            simp only [eq_self_iff_true, if_true]
            refine ⟨⟨h1, h2, h3, h4, h5, h6, ?_, ?_⟩, by trivial, by trivial, le_refl _⟩
            · intro hsmf
              rw [hsmT] at hsmf
              exact absurd hsmf (by simp)
            · intro _ _
              exact hgt

theorem smallNextSpec {rev : Bool} {shl shr : Shape} {lNext rNext : St → St}
    (hNl : NextSpec rev shl lNext) (hNr : NextSpec rev shr rNext) :
    ∀ st, Align rev (.node shl shr) st → stValid st = true →
      CacheOK rev shl shr (smallNextN lNext rNext st) ∧
      emit rev (.node shl shr) (smallNextN lNext rNext st)
        = (emit rev (.node shl shr) st).tail ∧
      curKeyOf (smallNextN lNext rNext st) = curKeyOf st ∧
      stSize (smallNextN lNext rNext st) < stSize st := by
  intro st hA hv
  cases st with
  | leaf rem => exact absurd hA (by simp [Align])
  | node s ck lv lk ls rv rk rs =>
    obtain ⟨h1, h2, h3, h4, h5, h6, h7, h8, h9⟩ := hA
    obtain ⟨el1, el2, el3⟩ := align_emit rev shl ls h1
    obtain ⟨er1, er2, er3⟩ := align_emit rev shr rs h2
    cases s with
    | true =>
      have hlv : lv = true := hv
      have hvl : stValid ls = true := by rw [← h3]; exact hlv
      obtain ⟨hla, hle, hlsz⟩ := hNl ls h1 hvl
      have hred : smallNextN lNext rNext (.node true ck lv lk ls rv rk rs)
          = .node true ck (stValid (lNext ls))
              (if stValid (lNext ls) = true then stKey (lNext ls) else lk)
              (lNext ls) rv rk rs := rfl
      rw [hred]
      have hbound : ∀ z ∈ emit rev shr rs, rLt rev lk z := by
        intro z hz
        have hrv : rv = true := by
          by_contra hx
          rw [Bool.not_eq_true] at hx
          have : emit rev shr rs = [] := by
            by_contra hy
            have := er2.mpr hy
            rw [← h4, hx] at this
            exact absurd this (by simp)
          rw [this] at hz
          exact absurd hz (by simp)
        have hvr : stValid rs = true := by rw [← h4]; exact hrv
        have hstrict : rLt rev lk rk := h8 hlv hrv
        have her := er3 hvr
        rw [her] at hz
        rcases List.mem_cons.mp hz with hz | hz
        · rw [hz]
          rw [h6 hrv] at hstrict
          exact hstrict
        · rw [her, List.pairwise_cons] at er1
          have := er1.1 z hz
          rw [← (h6 hrv)] at this
          exact rLt_trans hstrict this
      refine ⟨⟨hla, h2, rfl, h4, fun h => if_pos h, h6⟩, ?_, rfl, ?_⟩
      · show mergeDedup rev (emit rev shl (lNext ls)) (emit rev shr rs)
            = (mergeDedup rev (emit rev shl ls) (emit rev shr rs)).tail
        rw [hle]
        conv_rhs => rw [el3 hvl]
        rw [← (h5 hlv)]
        rw [mergeDedup_cons_left rev lk _ _ hbound]
        rw [List.tail_cons]
      · show stSize (lNext ls) + stSize rs < stSize ls + stSize rs
        omega
    | false =>
      have hrv : rv = true := hv
      have hvr : stValid rs = true := by rw [← h4]; exact hrv
      obtain ⟨hra, hre, hrsz⟩ := hNr rs h2 hvr
      have hred : smallNextN lNext rNext (.node false ck lv lk ls rv rk rs)
          = .node false ck lv lk ls (stValid (rNext rs))
              (if stValid (rNext rs) = true then stKey (rNext rs) else rk)
              (rNext rs) := rfl
      rw [hred]
      have hbound : ∀ z ∈ emit rev shl ls, rLt rev rk z := by
        intro z hz
        have hlv : lv = true := by
          by_contra hx
          rw [Bool.not_eq_true] at hx
          have : emit rev shl ls = [] := by
            by_contra hy
            have := el2.mpr hy
            rw [← h3, hx] at this
            exact absurd this (by simp)
          rw [this] at hz
          exact absurd hz (by simp)
        have hvl : stValid ls = true := by rw [← h3]; exact hlv
        have hstrict : rLt rev rk lk := h8 hlv hrv
        have hel := el3 hvl
        rw [hel] at hz
        rcases List.mem_cons.mp hz with hz | hz
        · rw [hz]
          rw [h5 hlv] at hstrict
          exact hstrict
        · rw [hel, List.pairwise_cons] at el1
          have := el1.1 z hz
          rw [← (h5 hlv)] at this
          exact rLt_trans hstrict this
      refine ⟨⟨h1, hra, h3, rfl, h5, fun h => if_pos h⟩, ?_, rfl, ?_⟩
      · show mergeDedup rev (emit rev shl ls) (emit rev shr (rNext rs))
            = (mergeDedup rev (emit rev shl ls) (emit rev shr rs)).tail
        rw [hre]
        conv_rhs => rw [er3 hvr]
        rw [← (h6 hrv)]
        rw [mergeDedup_cons_right rev rk _ _ hbound]
        rw [List.tail_cons]
      · show stSize ls + stSize (rNext rs) < stSize ls + stSize rs
        omega

theorem nodeNextSpec {rev : Bool} {shl shr : Shape} {lNext rNext : St → St}
    (hNl : NextSpec rev shl lNext) (hNr : NextSpec rev shr rNext) :
    NextSpec rev (.node shl shr) (nodeNext rev lNext rNext) := by
  intro st hA hv
  obtain ⟨hc1, he1, hck1, hsz1⟩ := smallNextSpec hNl hNr st hA hv
  obtain ⟨hw2, he2, hck2, hsz2⟩ := fixSpec hNr _ hc1
  obtain ⟨e1, e2, e3⟩ := align_emit rev _ st hA
  obtain ⟨f1, f2, f3⟩ := walign_emit hw2
  have hemit1 : emit rev (.node shl shr) (fixN rev rNext (smallNextN lNext rNext st))
      = (emit rev (.node shl shr) st).tail := by rw [he2, he1]
  have hx : stKey st = curKeyOf st :=
    (((align_node_iff rev shl shr st).mp hA).2).symm
  have hguard : ¬ (stValid (fixN rev rNext (smallNextN lNext rNext st)) = true ∧
      stKey (fixN rev rNext (smallNextN lNext rNext st))
        = curKeyOf (fixN rev rNext (smallNextN lNext rNext st))) := by
    rintro ⟨hv1, hk1⟩
    have hfe := f3 hv1
    have hmem : stKey (fixN rev rNext (smallNextN lNext rNext st))
        ∈ (emit rev (.node shl shr) st).tail := by
      rw [← hemit1, hfe]
      simp
    have hsorted := e1
    rw [e3 hv] at hsorted
    rw [List.pairwise_cons] at hsorted
    have hgt := hsorted.1 _ hmem
    rw [hck2, hck1, ← hx] at hk1
    rw [hk1] at hgt
    exact rLt_irrefl rev _ hgt
  have hloop : nextLoopN rev lNext rNext (stSize st + 1) st
      = fixN rev rNext (smallNextN lNext rNext st) := by
    obtain ⟨m, hm⟩ : ∃ m, stSize st = m + 1 := by
      refine ⟨stSize st - 1, ?_⟩
      have hne := e2.mp hv
      have hlen := emit_length_le rev (.node shl shr) st
      rcases hemit : emit rev (.node shl shr) st with _ | ⟨a, t⟩
      · exact absurd hemit hne
      · rw [hemit] at hlen
        simp at hlen
        omega
    rw [hm]
    show nextLoopN rev lNext rNext (m + 1 + 1) st = _
    rw [nextLoopN]
    rw [if_pos ⟨hv, hx⟩]
    rw [nextLoopN]
    rw [if_neg hguard]
  obtain ⟨sa1, sa2, _, _, sa5⟩ := setCur_align hw2
  refine ⟨?_, ?_, ?_⟩
  · show Align rev (.node shl shr) (setCur (nextLoopN rev lNext rNext (stSize st + 1) st))
    rw [hloop]
    exact sa1
  · show emit rev (.node shl shr) (setCur (nextLoopN rev lNext rNext (stSize st + 1) st)) = _
    rw [hloop, sa2, hemit1]
  · show stSize (setCur (nextLoopN rev lNext rNext (stSize st + 1) st)) < _
    rw [hloop, sa5]
    omega

theorem nodeNext_invalid {rev : Bool} {shl shr : Shape} {lNext rNext : St → St} :
    ∀ st, Align rev (.node shl shr) st → stValid st = false →
      nodeNext rev lNext rNext st = st := by
  intro st hA hv
  show setCur (nextLoopN rev lNext rNext (stSize st + 1) st) = st
  have hstep : nextLoopN rev lNext rNext (stSize st + 1) st = st := by
    rw [nextLoopN]
    rw [if_neg (by rintro ⟨hvv, _⟩; rw [hv] at hvv; exact absurd hvv (by simp))]
  rw [hstep]
  exact setCur_of_align hA

theorem nodeRepositionSpec {rev : Bool} {shl shr : Shape} {rNext : St → St}
    (hNr : NextSpec rev shr rNext) :
    ∀ s ck lv lk ls rv rk rs ls2 rs2,
      Align rev shl ls2 → Align rev shr rs2 →
      Align rev (.node shl shr)
        (nodeReposition rev rNext ls2 rs2 (.node s ck lv lk ls rv rk rs)) ∧
      emit rev (.node shl shr)
        (nodeReposition rev rNext ls2 rs2 (.node s ck lv lk ls rv rk rs))
        = emit rev (.node shl shr)
            (fixN rev rNext (.node s ck (stValid ls2)
              (if stValid ls2 = true then stKey ls2 else lk) ls2 (stValid rs2)
              (if stValid rs2 = true then stKey rs2 else rk) rs2)) ∧
      (∀ x, x ∈ emit rev (.node shl shr)
          (nodeReposition rev rNext ls2 rs2 (.node s ck lv lk ls rv rk rs))
        ↔ x ∈ emit rev shl ls2 ∨ x ∈ emit rev shr rs2) := by
  intro s ck lv lk ls rv rk rs ls2 rs2 hl2 hr2
  have hred : nodeReposition rev rNext ls2 rs2 (.node s ck lv lk ls rv rk rs)
      = setCur (fixN rev rNext (.node s ck (stValid ls2)
          (if stValid ls2 = true then stKey ls2 else lk) ls2 (stValid rs2)
          (if stValid rs2 = true then stKey rs2 else rk) rs2)) := rfl
  rw [hred]
  have hc : CacheOK rev shl shr (.node s ck (stValid ls2)
      (if stValid ls2 = true then stKey ls2 else lk) ls2 (stValid rs2)
      (if stValid rs2 = true then stKey rs2 else rk) rs2) :=
    ⟨hl2, hr2, rfl, rfl, fun h => if_pos h, fun h => if_pos h⟩
  obtain ⟨hw, he, _, _⟩ := fixSpec hNr _ hc
  obtain ⟨sa1, sa2, _⟩ := setCur_align hw
  refine ⟨sa1, ?_, ?_⟩
  · rw [sa2]
  · intro x
    rw [sa2, he]
    show x ∈ mergeDedup rev (emit rev shl ls2) (emit rev shr rs2) ↔ _
    exact mem_mergeDedup rev x _ _

theorem leafTrav_pairwise (rev : Bool) (entries : List Key)
    (hw : List.Pairwise (fun a b : Key => a < b) entries) :
    List.Pairwise (rLt rev) (leafTrav rev entries) := by
  cases rev
  · show List.Pairwise (rLt false) entries
    exact hw.imp (fun h => h)
  · show List.Pairwise (rLt true) entries.reverse
    rw [List.pairwise_reverse]
    exact hw.imp (fun h => h)

theorem leafTrav_mem (rev : Bool) (entries : List Key) (x : Key) :
    x ∈ leafTrav rev entries ↔ x ∈ entries := by
  cases rev
  · exact Iff.rfl
  · show x ∈ entries.reverse ↔ _
    exact List.mem_reverse

theorem sorted_dropWhile_eq_filter (R : Key → Key → Prop) (p : Key → Bool)
    (hp : ∀ u v, R u v → p v = true → p u = true) :
    ∀ l : List Key, List.Pairwise R l →
      l.dropWhile p = l.filter (fun x => ! p x) := by
  intro l hl
  induction l with
  | nil => rfl
  | cons x xs ih =>
    rw [List.pairwise_cons] at hl
    rw [List.dropWhile_cons, List.filter_cons]
    by_cases hx : p x = true
    · rw [if_pos hx, if_neg (by simp [hx])]
      exact ih hl.2
    · rw [if_neg hx, if_pos (by simp [Bool.not_eq_true] at hx; simp [hx])]
      have hall : ∀ a ∈ xs, (fun y => ! p y) a = true := by
        intro a ha
        by_cases hpa : p a = true
        · exact absurd (hp x a (hl.1 a ha) hpa) hx
        · simp [Bool.not_eq_true] at hpa
          simp [hpa]
      rw [List.filter_eq_self.mpr hall]

theorem leafSeekRem_spec (rev : Bool) (entries : List Key) (k : Key)
    (hw : List.Pairwise (fun a b : Key => a < b) entries) :
    List.Pairwise (rLt rev) (leafSeekRem rev entries k) ∧
    (∀ x, x ∈ leafSeekRem rev entries k ↔ x ∈ entries ∧ keepB rev k x = true) := by
  have htrav := leafTrav_pairwise rev entries hw
  cases rev
  · have hd := sorted_dropWhile_eq_filter (rLt false) (fun e => decide (e < k))
      (by
        intro u v huv hv
        rw [decide_eq_true_eq] at hv ⊢
        exact lt_trans huv hv)
      entries htrav
    constructor
    · show List.Pairwise (rLt false) (entries.dropWhile fun e => decide (e < k))
      rw [hd]
      exact htrav.filter _
    · intro x
      show x ∈ (entries.dropWhile fun e => decide (e < k)) ↔ _
      rw [hd, List.mem_filter]
      have hkb : keepB false k x = ! decide (x < k) := by
        unfold keepB
        rw [show (decide (rLt false x k)) = (decide (x < k))
          from decide_eq_decide.mpr (Iff.rfl)]
      rw [hkb]
  · have hd := sorted_dropWhile_eq_filter (rLt true) (fun e => decide (k < e))
      (by
        intro u v huv hv
        rw [decide_eq_true_eq] at hv ⊢
        exact lt_trans hv huv)
      entries.reverse (by simpa [leafTrav] using htrav)
    constructor
    · show List.Pairwise (rLt true) (entries.reverse.dropWhile fun e => decide (k < e))
      rw [hd]
      refine List.Pairwise.filter _ ?_
      simpa [leafTrav] using htrav
    · intro x
      show x ∈ (entries.reverse.dropWhile fun e => decide (k < e)) ↔ _
      rw [hd, List.mem_filter, List.mem_reverse]
      have hkb : keepB true k x = ! decide (k < x) := by
        unfold keepB
        rw [show (decide (rLt true x k)) = (decide (k < x))
          from decide_eq_decide.mpr (Iff.rfl)]
      rw [hkb]

/-- The full child-operation contract the grand induction carries:
`Next` drops the head (and is the identity when invalid), `Rewind`
restores the full union, `Seek(k)` restores the union restricted to keys
at or past `k` — each leaving an aligned state. -/
def OpsSpec (rev : Bool) (sh : Shape) (o : Ops) : Prop :=
  NextSpec rev sh o.nextF ∧
  (∀ st, Align rev sh st → stValid st = false → o.nextF st = st) ∧
  (∀ st, fits sh st = true →
      Align rev sh (o.rewindF st) ∧
      (∀ x, x ∈ emit rev sh (o.rewindF st) ↔ x ∈ shapeKeys sh)) ∧
  (∀ k st, fits sh st = true →
      Align rev sh (o.seekF k st) ∧
      (∀ x, x ∈ emit rev sh (o.seekF k st) ↔
        x ∈ shapeKeys sh ∧ keepB rev k x = true))

theorem mkOps_spec (rev : Bool) :
    ∀ sh, WFShape sh → OpsSpec rev sh (mkOps rev sh) := by
  intro sh
  induction sh with
  | leaf entries =>
    intro hw
    refine ⟨?_, ?_, ?_, ?_⟩
    · intro st hA hv
      cases st with
      | node s ck lv lk ls rv rk rs => exact absurd hA (by simp [Align])
      | leaf rem =>
        have hA' : List.Pairwise (rLt rev) rem := hA
        cases rem with
        | nil => exact absurd hv (by simp [stValid])
        | cons a t =>
          refine ⟨?_, ?_, ?_⟩
          · exact (List.pairwise_cons.mp hA').2
          · rfl
          · show t.length < (a :: t).length
            simp
    · intro st hA hv
      cases st with
      | node s ck lv lk ls rv rk rs => exact absurd hA (by simp [Align])
      | leaf rem =>
        cases rem with
        | nil => rfl
        | cons a t => exact absurd hv (by simp [stValid])
    · intro st hf
      cases st with
      | node s ck lv lk ls rv rk rs => exact absurd hf (by simp [fits])
      | leaf rem =>
        refine ⟨?_, ?_⟩
        · exact leafTrav_pairwise rev entries hw
        · intro x
          exact leafTrav_mem rev entries x
    · intro k st hf
      cases st with
      | node s ck lv lk ls rv rk rs => exact absurd hf (by simp [fits])
      | leaf rem =>
        obtain ⟨hs1, hs2⟩ := leafSeekRem_spec rev entries k hw
        exact ⟨hs1, hs2⟩
  | node shl shr ihl ihr =>
    intro hw
    obtain ⟨hwl, hwr⟩ := hw
    obtain ⟨nl, nlI, rl, sl⟩ := ihl hwl
    obtain ⟨nr, nrI, rr, sr⟩ := ihr hwr
    refine ⟨?_, ?_, ?_, ?_⟩
    · exact nodeNextSpec nl nr
    · intro st hA hv
      exact nodeNext_invalid st hA hv
    · intro st hf
      cases st with
      | leaf rem => exact absurd hf (by simp [fits])
      | node s ck lv lk ls rv rk rs =>
        have hfl : fits shl ls = true ∧ fits shr rs = true := by
          simpa [fits, Bool.and_eq_true] using hf
        obtain ⟨ra1, ra2⟩ := rl ls hfl.1
        obtain ⟨rb1, rb2⟩ := rr rs hfl.2
        obtain ⟨p1, _, p3⟩ := nodeRepositionSpec nr s ck lv lk ls rv rk rs _ _ ra1 rb1
        have hred : (mkOps rev (.node shl shr)).rewindF (.node s ck lv lk ls rv rk rs)
            = nodeReposition rev (mkOps rev shr).nextF ((mkOps rev shl).rewindF ls)
                ((mkOps rev shr).rewindF rs) (.node s ck lv lk ls rv rk rs) := rfl
        rw [hred]
        refine ⟨p1, ?_⟩
        intro x
        rw [p3 x, ra2 x, rb2 x]
        show _ ↔ x ∈ shapeKeys shl ++ shapeKeys shr
        rw [List.mem_append]
    · intro k st hf
      cases st with
      | leaf rem => exact absurd hf (by simp [fits])
      | node s ck lv lk ls rv rk rs =>
        have hfl : fits shl ls = true ∧ fits shr rs = true := by
          simpa [fits, Bool.and_eq_true] using hf
        obtain ⟨sa1, sa2⟩ := sl k ls hfl.1
        obtain ⟨sb1, sb2⟩ := sr k rs hfl.2
        obtain ⟨p1, _, p3⟩ := nodeRepositionSpec nr s ck lv lk ls rv rk rs _ _ sa1 sb1
        have hred : (mkOps rev (.node shl shr)).seekF k (.node s ck lv lk ls rv rk rs)
            = nodeReposition rev (mkOps rev shr).nextF ((mkOps rev shl).seekF k ls)
                ((mkOps rev shr).seekF k rs) (.node s ck lv lk ls rv rk rs) := rfl
        rw [hred]
        refine ⟨p1, ?_⟩
        intro x
        rw [p3 x, sa2 x, sb2 x]
        show _ ↔ x ∈ shapeKeys shl ++ shapeKeys shr ∧ keepB rev k x = true
        rw [List.mem_append]
        tauto

theorem buildShape_spec_aux :
    ∀ n, ∀ inputs : List (List Key), inputs.length ≤ n → ∀ sh,
      buildShape inputs = some sh →
      shapeKeys sh = inputs.join ∧
      ((∀ l ∈ inputs, List.Pairwise (fun a b : Key => a < b) l) → WFShape sh) := by
  intro n
  induction n with
  | zero =>
    intro inputs hlen sh hb
    cases inputs with
    | nil => simp [buildShape] at hb
    | cons a t => simp at hlen
  | succ n ih =>
    intro inputs hlen sh hb
    cases inputs with
    | nil => simp [buildShape] at hb
    | cons e1 rest =>
      cases rest with
      | nil =>
        simp only [buildShape, Option.some_inj] at hb
        subst hb
        constructor
        · simp [shapeKeys]
        · intro h
          exact h e1 (by simp)
      | cons e2 es =>
        simp only [buildShape] at hb
        rcases hbl : buildShape ((e1 :: e2 :: es).take ((e1 :: e2 :: es).length / 2))
          with _ | shl
        · rw [hbl] at hb
          simp at hb
        rcases hbr : buildShape ((e1 :: e2 :: es).drop ((e1 :: e2 :: es).length / 2))
          with _ | shr
        · rw [hbl, hbr] at hb
          simp at hb
        rw [hbl, hbr] at hb
        simp only [Option.some_inj] at hb
        subst hb
        have hlt : ((e1 :: e2 :: es).take ((e1 :: e2 :: es).length / 2)).length ≤ n := by
          simp only [List.length_take, List.length_cons] at *
          omega
        have hld : ((e1 :: e2 :: es).drop ((e1 :: e2 :: es).length / 2)).length ≤ n := by
          simp only [List.length_drop, List.length_cons] at *
          omega
        obtain ⟨hk1, hw1⟩ := ih _ hlt shl hbl
        obtain ⟨hk2, hw2⟩ := ih _ hld shr hbr
        constructor
        · show shapeKeys shl ++ shapeKeys shr = _
          rw [hk1, hk2, ← List.join_append, List.take_append_drop]
        · intro h
          refine ⟨?_, ?_⟩
          · exact hw1 (fun l hl => h l (List.mem_of_mem_take hl))
          · exact hw2 (fun l hl => h l (List.mem_of_mem_drop hl))

theorem buildShape_spec :
    ∀ inputs : List (List Key), ∀ sh, buildShape inputs = some sh →
      shapeKeys sh = inputs.join ∧
      ((∀ l ∈ inputs, List.Pairwise (fun a b : Key => a < b) l) → WFShape sh) :=
  fun inputs => buildShape_spec_aux inputs.length inputs (le_refl _)

theorem collect_spec (rev : Bool) (sh : Shape) (hw : WFShape sh) :
    ∀ fuel st, Align rev sh st → (emit rev sh st).length ≤ fuel →
      collect (mkOps rev sh).nextF fuel st = emit rev sh st := by
  intro fuel
  induction fuel with
  | zero =>
    intro st hA hlen
    have hnil : emit rev sh st = [] := by
      cases hemit : emit rev sh st with
      | nil => rfl
      | cons a t =>
        rw [hemit] at hlen
        simp at hlen
    rw [hnil]
    rfl
  | succ n ih =>
    intro st hA hlen
    obtain ⟨e1, e2, e3⟩ := align_emit rev sh st hA
    rw [collect]
    by_cases hv : stValid st = true
    · rw [if_pos hv]
      obtain ⟨na, ne, _⟩ := (mkOps_spec rev sh hw).1 st hA hv
      have hlen2 : (emit rev sh ((mkOps rev sh).nextF st)).length ≤ n := by
        rw [ne]
        have he := e3 hv
        rw [he] at hlen
        simp at hlen
        rw [he]
        simp
        omega
      rw [ih _ na hlen2, ne]
      conv_rhs => rw [e3 hv]
    · rw [if_neg hv]
      have : emit rev sh st = [] := by
        by_contra hx
        exact hv (e2.mpr hx)
      rw [this]

/-- Build the `MergeIterator` tree over the inputs, `Rewind`, and drain
it with `Next` (the fuel always suffices). -/
def runAll (rev : Bool) (sh : Shape) : List Key :=
  collect (mkOps rev sh).nextF
    (stSize ((mkOps rev sh).rewindF (initSt sh)) + 1)
    ((mkOps rev sh).rewindF (initSt sh))

/-- C2: the merge iterator built over strictly-sorted input streams
emits, after `Rewind` and repeated `Next`, a traversal-sorted (strictly
ascending forward, strictly descending in reverse) stream whose members
are exactly the union of the inputs — i.e. `sort(unique_by_full_key(⋃ Sᵢ))`:
a full key shared by several inputs is emitted exactly once. -/
theorem claim_C2_roundtrip (rev : Bool) (inputs : List (List Key)) (sh : Shape)
    (hb : buildShape inputs = some sh)
    (hws : ∀ l ∈ inputs, List.Pairwise (fun a b : Key => a < b) l) :
    List.Pairwise (rLt rev) (runAll rev sh) ∧
    (∀ x, x ∈ runAll rev sh ↔ x ∈ inputs.join) := by
  obtain ⟨hkeys, hwf⟩ := buildShape_spec inputs sh hb
  have hw := hwf hws
  have hfit := fits_initSt sh
  obtain ⟨ra, rm⟩ := (mkOps_spec rev sh hw).2.2.1 (initSt sh) hfit
  have hlen := emit_length_le rev sh ((mkOps rev sh).rewindF (initSt sh))
  have hcol : runAll rev sh = emit rev sh ((mkOps rev sh).rewindF (initSt sh)) := by
    unfold runAll
    exact collect_spec rev sh hw _ _ ra (by omega)
  obtain ⟨e1, _, _⟩ := align_emit rev sh _ ra
  rw [hcol]
  refine ⟨e1, ?_⟩
  intro x
  rw [rm x, hkeys]

/-- The conclusion of claim C3 for a `Seek(k)` from any structurally
matching state: validity signals some input key at or past `k` in
traversal order, and then `Key()` is the traversal-least such key —
least full key `≥ k` forward, greatest full key `≤ k` in reverse. -/
def SeekConclusion (rev : Bool) (inputs : List (List Key)) (sh : Shape)
    (k : Key) (st : St) : Prop :=
  (stValid ((mkOps rev sh).seekF k st) = true ↔
    ∃ x ∈ inputs.join, ¬ rLt rev x k) ∧
  (stValid ((mkOps rev sh).seekF k st) = true →
    stKey ((mkOps rev sh).seekF k st) ∈ inputs.join ∧
    ¬ rLt rev (stKey ((mkOps rev sh).seekF k st)) k ∧
    ∀ y ∈ inputs.join, ¬ rLt rev y k →
      stKey ((mkOps rev sh).seekF k st) = y ∨
      rLt rev (stKey ((mkOps rev sh).seekF k st)) y)

/-- C3: after `Seek(k)` the merge iterator is valid iff some input holds
a key at or past `k` in traversal order, and its `Key()` is then the
least full key `≥ k` (forward) resp. the greatest full key `≤ k`
(reverse) present in any input. -/
theorem claim_C3_seek (rev : Bool) (inputs : List (List Key)) (sh : Shape)
    (hb : buildShape inputs = some sh)
    (hws : ∀ l ∈ inputs, List.Pairwise (fun a b : Key => a < b) l)
    (k : Key) (st : St) (hf : fits sh st = true) :
    SeekConclusion rev inputs sh k st := by
  obtain ⟨hkeys, hwf⟩ := buildShape_spec inputs sh hb
  have hw := hwf hws
  obtain ⟨sa, sm⟩ := (mkOps_spec rev sh hw).2.2.2 k st hf
  obtain ⟨e1, e2, e3⟩ := align_emit rev sh _ sa
  have hkp : ∀ x : Key, (x ∈ shapeKeys sh ∧ keepB rev k x = true) ↔
      (x ∈ inputs.join ∧ ¬ rLt rev x k) := by
    intro x
    rw [hkeys]
    unfold keepB
    simp
  constructor
  · rw [e2]
    constructor
    · intro hne
      rcases hemit : emit rev sh ((mkOps rev sh).seekF k st) with _ | ⟨a, t⟩
      · exact absurd hemit hne
      · have ha : a ∈ emit rev sh ((mkOps rev sh).seekF k st) := by
          rw [hemit]; simp
        have := (hkp a).mp ((sm a).mp ha)
        exact ⟨a, this.1, this.2⟩
    · rintro ⟨x, hx1, hx2⟩
      intro hnil
      have hxm : x ∈ emit rev sh ((mkOps rev sh).seekF k st) :=
        (sm x).mpr ((hkp x).mpr ⟨hx1, hx2⟩)
      rw [hnil] at hxm
      exact absurd hxm (by simp)
  · intro hv
    have hcons := e3 hv
    have hkmem : stKey ((mkOps rev sh).seekF k st)
        ∈ emit rev sh ((mkOps rev sh).seekF k st) := by
      rw [hcons]; simp
    have hkk := (hkp _).mp ((sm _).mp hkmem)
    refine ⟨hkk.1, hkk.2, ?_⟩
    intro y hy1 hy2
    have hym : y ∈ emit rev sh ((mkOps rev sh).seekF k st) :=
      (sm y).mpr ((hkp y).mpr ⟨hy1, hy2⟩)
    rw [hcons] at hym
    rcases List.mem_cons.mp hym with hym | hym
    · exact Or.inl hym.symm
    · right
      rw [hcons, List.pairwise_cons] at e1
      exact e1.1 y hym

def inp2 : List (List Key) := [[⟨[1], 5⟩], [⟨[1], 5⟩, ⟨[2], 3⟩]]

def sh2 : Shape := .node (.leaf [⟨[1], 5⟩]) (.leaf [⟨[1], 5⟩, ⟨[2], 3⟩])

theorem claim_C2_roundtrip_witness :
    (buildShape inp2 = some sh2 ∧
      (∀ l ∈ inp2, List.Pairwise (fun a b : Key => a < b) l)) ∧
    (List.Pairwise (rLt false) (runAll false sh2) ∧
      (∀ x, x ∈ runAll false sh2 ↔ x ∈ inp2.join)) :=
  ⟨⟨by simp [buildShape, inp2, sh2], by decide⟩,
   claim_C2_roundtrip false inp2 sh2 (by simp [buildShape, inp2, sh2]) (by decide)⟩

theorem claim_C3_seek_witness :
    (buildShape inp2 = some sh2 ∧
      (∀ l ∈ inp2, List.Pairwise (fun a b : Key => a < b) l) ∧
      fits sh2 (initSt sh2) = true) ∧
    SeekConclusion false inp2 sh2 ⟨[1], 4⟩ (initSt sh2) :=
  ⟨⟨by simp [buildShape, inp2, sh2], by decide, by decide⟩,
   claim_C3_seek false inp2 sh2 (by simp [buildShape, inp2, sh2]) (by decide)
     ⟨[1], 4⟩ (initSt sh2) (by decide)⟩

/-! ### Closing: `levelHandler.close`, `MergeIterator.Close`, `decrRefs` -/

/-- The iterator tree a `MergeIterator.Close` walks: each leaf is a
child iterator with its `Close` outcome and an id for the trace. -/
inductive CTree : Type where
  | leaf (tid : Nat) (closeErr : Option String)
  | node (l r : CTree)
deriving DecidableEq, Repr

def ctIds : CTree → List Nat
  | .leaf tid _ => [tid]
  | .node l r => ctIds l ++ ctIds r

/-- The first (in-order) close error below the tree. -/
def ctFirstErr : CTree → Option String
  | .leaf _ e => e
  | .node l r =>
    match ctFirstErr l with
    | some e => some e
    | none => ctFirstErr r

/-- `MergeIterator.Close`: close the left child, then the right child
(both always), then return the left error wrapped `"MergeIterator"` if
non-nil, else the right error wrapped. -/
def miClose : CTree → Option String × List Nat
  | .leaf tid e => (e, [tid])
  | .node l r =>
    let r1 := miClose l
    let r2 := miClose r
    ((match r1.1 with
      | some e => LevelHandler.wrapErr (some e) "MergeIterator"
      | none => LevelHandler.wrapErr r2.1 "MergeIterator"), r1.2 ++ r2.2)

def wrapIter : Nat → Option String → Option String
  | 0, e => e
  | n + 1, e => LevelHandler.wrapErr (wrapIter n e) "MergeIterator"

theorem wrapIter_none (n : Nat) : wrapIter n none = none := by
  induction n with
  | zero => rfl
  | succ n ih => simp [wrapIter, ih, LevelHandler.wrapErr]

theorem wrapIter_some (n : Nat) (e : String) :
    ∃ m : String, wrapIter n (some e) = some m := by
  induction n with
  | zero => exact ⟨e, rfl⟩
  | succ n ih =>
    obtain ⟨m, hm⟩ := ih
    exact ⟨"MergeIterator" ++ ": " ++ m, by simp [wrapIter, hm, LevelHandler.wrapErr]⟩

theorem miClose_spec : ∀ ct : CTree,
    (miClose ct).2 = ctIds ct ∧
    ∃ n, (miClose ct).1 = wrapIter n (ctFirstErr ct) := by
  intro ct
  induction ct with
  | leaf tid e => exact ⟨rfl, 0, rfl⟩
  | node l r ihl ihr =>
    obtain ⟨hl2, nl, hl1⟩ := ihl
    obtain ⟨hr2, nr, hr1⟩ := ihr
    constructor
    · show (miClose l).2 ++ (miClose r).2 = ctIds l ++ ctIds r
      rw [hl2, hr2]
    · show ∃ n, (match (miClose l).1 with
        | some e => LevelHandler.wrapErr (some e) "MergeIterator"
        | none => LevelHandler.wrapErr (miClose r).1 "MergeIterator")
          = wrapIter n (ctFirstErr (.node l r))
      rcases hfl : ctFirstErr l with _ | e
      · rw [hfl, wrapIter_none] at hl1
        rw [hl1]
        refine ⟨nr + 1, ?_⟩
        show LevelHandler.wrapErr (miClose r).1 "MergeIterator" = _
        rw [hr1]
        have : ctFirstErr (CTree.node l r) = ctFirstErr r := by
          show (match ctFirstErr l with
            | some e => some e
            | none => ctFirstErr r) = ctFirstErr r
          rw [hfl]
        rw [this]
        rfl
      · rw [hfl] at hl1
        obtain ⟨m, hm⟩ := wrapIter_some nl e
        rw [hm] at hl1
        rw [hl1]
        refine ⟨nl + 1, ?_⟩
        have : ctFirstErr (CTree.node l r) = some e := by
          show (match ctFirstErr l with
            | some e => some e
            | none => ctFirstErr r) = some e
          rw [hfl]
        rw [this]
        show LevelHandler.wrapErr (some m) "MergeIterator" = _
        rw [show wrapIter (nl + 1) (some e)
          = LevelHandler.wrapErr (wrapIter nl (some e)) "MergeIterator" from rfl]
        rw [hm]

theorem closeAll_eq : ∀ ts : List Table,
    (LevelHandler.closeAll ts).1 = ts.findSome? Table.closeErr ∧
    (LevelHandler.closeAll ts).2 = ts.map Table.id := by
  intro ts
  induction ts with
  | nil => exact ⟨rfl, rfl⟩
  | cons t ts ih =>
    obtain ⟨ih1, ih2⟩ := ih
    constructor
    · show (match t.closeErr with
        | some e => some e
        | none => (LevelHandler.closeAll ts).1) = _
      rw [List.findSome?_cons]
      rcases h : t.closeErr with _ | e
      · rw [ih1]
      · rfl
    · show t.id :: (LevelHandler.closeAll ts).2 = _
      rw [ih2, List.map_cons]

theorem decrRefs_eq : ∀ ts : List Table,
    (LevelHandler.decrRefs ts).1 = ts.findSome? Table.decrRefErr ∧
    (LevelHandler.decrRefs ts).2
      = (ts.takeWhile (fun t => (t.decrRefErr).isNone)).map Table.id
        ++ (match ts.find? (fun t => (t.decrRefErr).isSome) with
            | some t => [t.id]
            | none => []) := by
  intro ts
  induction ts with
  | nil => exact ⟨rfl, rfl⟩
  | cons t ts ih =>
    obtain ⟨ih1, ih2⟩ := ih
    rcases h : t.decrRefErr with _ | e
    · constructor
      · show (LevelHandler.decrRefs (t :: ts)).1 = _
        show (match t.decrRefErr with
          | some e => ((some e : Option String), [t.id])
          | none => ((LevelHandler.decrRefs ts).1, t.id :: (LevelHandler.decrRefs ts).2)).1 = _
        rw [h, List.findSome?_cons, h]
        exact ih1
      · show (match t.decrRefErr with
          | some e => ((some e : Option String), [t.id])
          | none => ((LevelHandler.decrRefs ts).1, t.id :: (LevelHandler.decrRefs ts).2)).2 = _
        rw [h]
        show t.id :: (LevelHandler.decrRefs ts).2 = _
        rw [ih2]
        rw [List.takeWhile_cons, List.find?_cons]
        rw [h]
        simp
    · constructor
      · show (match t.decrRefErr with
          | some e => ((some e : Option String), [t.id])
          | none => ((LevelHandler.decrRefs ts).1, t.id :: (LevelHandler.decrRefs ts).2)).1 = _
        rw [h, List.findSome?_cons, h]
      · show (match t.decrRefErr with
          | some e => ((some e : Option String), [t.id])
          | none => ((LevelHandler.decrRefs ts).1, t.id :: (LevelHandler.decrRefs ts).2)).2 = _
        rw [h]
        show [t.id] = _
        rw [List.takeWhile_cons, List.find?_cons]
        rw [h]
        simp

def tE1 : Table := { id := 11, decrRefErr := some "eA" }

def tE2 : Table := { id := 12, decrRefErr := some "eB" }

/-- C9 as stated fails on the code: in the `decrRef` pass of
`deleteTables`/`replaceTables`, `decrRefs` returns at the FIRST failing
table — the remaining tables are never attempted (the trace stops at id
11; table 12's `DecrRef` never runs) — and the error is returned raw,
not wrapped with either subsystem name. -/
theorem claim_C9_counterexample :
    LevelHandler.decrRefs [tE1, tE2] = (some "eA", [11]) ∧
    ¬ ((LevelHandler.decrRefs [tE1, tE2]).2 = [tE1, tE2].map Table.id) ∧
    (LevelHandler.decrRefs [tE1, tE2]).1
      ≠ LevelHandler.wrapErr (some "eA") "levelHandler.close" ∧
    (LevelHandler.decrRefs [tE1, tE2]).1
      ≠ LevelHandler.wrapErr (some "eA") "MergeIterator" := by
  refine ⟨rfl, by decide, by decide, by decide⟩

/-- C9 (amended): `levelHandler.close` attempts every table's `Close`
and returns the first error wrapped `"levelHandler.close"`;
`MergeIterator.Close` closes both children unconditionally (every leaf
iterator is attempted) and returns the first in-order error wrapped in
`"MergeIterator"` at least once (once per tree level it crosses).  The
`decrRefs` pass of `deleteTables`/`replaceTables`, however, RETURNS AT
THE FIRST failing table without attempting the rest and without
wrapping.  The structural update of `deleteTables`/`replaceTables` is
computed before `decrRefs` runs and is not rolled back on error. -/
theorem claim_C9_close (s : LevelHandler) (toDel toAdd : List Table) (l r : CTree) :
    ((LevelHandler.lhClose s).2 = s.tables.map Table.id ∧
     (LevelHandler.lhClose s).1
       = LevelHandler.wrapErr (s.tables.findSome? Table.closeErr)
           "levelHandler.close") ∧
    ((miClose (.node l r)).2 = ctIds l ++ ctIds r ∧
     ∃ n, 1 ≤ n ∧ (miClose (.node l r)).1 = wrapIter n (ctFirstErr (.node l r))) ∧
    ((LevelHandler.decrRefs toDel).1 = toDel.findSome? Table.decrRefErr ∧
     (LevelHandler.decrRefs toDel).2
       = (toDel.takeWhile (fun t => (t.decrRefErr).isNone)).map Table.id
         ++ (match toDel.find? (fun t => (t.decrRefErr).isSome) with
             | some t => [t.id]
             | none => [])) ∧
    ((LevelHandler.deleteTables s toDel).1.tables
       = s.tables.filter (fun t => !((toDel.map Table.id).contains t.id)) ∧
     (LevelHandler.replaceTables s toDel toAdd).1.tables
       = ((s.tables.filter (fun t => !((toDel.map Table.id).contains t.id)))
           ++ toAdd).insertionSort LevelHandler.tableLe ∧
     (LevelHandler.deleteTables s toDel).2 = LevelHandler.decrRefs toDel ∧
     (LevelHandler.replaceTables s toDel toAdd).2
       = LevelHandler.decrRefs toDel) := by
  refine ⟨?_, ?_, ?_, ?_⟩
  · obtain ⟨h1, h2⟩ := closeAll_eq s.tables
    exact ⟨h2, by rw [← h1]; rfl⟩
  · obtain ⟨hl2, nl, hl1⟩ := miClose_spec l
    obtain ⟨hr2, nr, hr1⟩ := miClose_spec r
    refine ⟨?_, ?_⟩
    · show (miClose l).2 ++ (miClose r).2 = ctIds l ++ ctIds r
      rw [hl2, hr2]
    · rcases hfl : ctFirstErr l with _ | e
      · rw [hfl, wrapIter_none] at hl1
        refine ⟨nr + 1, by omega, ?_⟩
        show (match (miClose l).1 with
          | some e => LevelHandler.wrapErr (some e) "MergeIterator"
          | none => LevelHandler.wrapErr (miClose r).1 "MergeIterator")
            = wrapIter (nr + 1) (ctFirstErr (.node l r))
        rw [hl1]
        have hcf : ctFirstErr (CTree.node l r) = ctFirstErr r := by
          show (match ctFirstErr l with
            | some e => some e
            | none => ctFirstErr r) = ctFirstErr r
          rw [hfl]
        rw [hcf, hr1]
        rfl
      · rw [hfl] at hl1
        obtain ⟨m, hm⟩ := wrapIter_some nl e
        rw [hm] at hl1
        refine ⟨nl + 1, by omega, ?_⟩
        show (match (miClose l).1 with
          | some e => LevelHandler.wrapErr (some e) "MergeIterator"
          | none => LevelHandler.wrapErr (miClose r).1 "MergeIterator")
            = wrapIter (nl + 1) (ctFirstErr (.node l r))
        rw [hl1]
        have hcf : ctFirstErr (CTree.node l r) = some e := by
          show (match ctFirstErr l with
            | some e => some e
            | none => ctFirstErr r) = some e
          rw [hfl]
        rw [hcf]
        show LevelHandler.wrapErr (some m) "MergeIterator"
          = LevelHandler.wrapErr (wrapIter nl (some e)) "MergeIterator"
        rw [hm]
  · exact decrRefs_eq toDel
  · exact ⟨rfl, rfl, rfl, rfl⟩

end MergeTree

end Badger
